import Mathlib

/-!
Verification of the streaming base64 decoder `FromBase64Reader`
(src/src/from_base64_reader.rs) against its natural-language specification.

Bytes are modelled as `Nat` (values `< 256` where relevant); the fixed
internal array `buf : [u8; BUFFER_SIZE]` and the 2-byte overflow array
`temp : [u8; 2]` are modelled as total functions `Nat → Nat` together with
the explicit `buf_length` / `buf_offset` / `temp_length` bookkeeping fields
of the struct.  The raw-pointer `copy` / `copy_nonoverlapping` calls become
pointwise function updates; since a total function cannot crash on an
out-of-range index, the ghost field `oobCopy` records whenever the
compaction copy of `buf_left_shift` would touch an index `≥ BUFFER_SIZE`
(an out-of-bounds access of the real array).
-/

namespace Base64Stream

/-- Modelled from the spec: the buffer capacity constant `BUFFER_SIZE` of the
crate root is not part of the provided source; the spec describes it as a
configured constant, "practically large e.g. several KB", and the crate uses
4096. -/
def BUFFER_SIZE : Nat := 4096

/-- Modelled from the spec: the error type of the external decode primitive
(`base64::DecodeError`), which per the spec fails with "invalid character,
invalid padding, invalid length". -/
inductive DecodeError where
  | invalidChar
  | invalidLength
  | invalidPadding
deriving DecidableEq

/-- The standard base64 alphabet: 6-bit value to ASCII code. -/
def b64Char (v : Nat) : Nat :=
  if v < 26 then 65 + v
  else if v < 52 then 97 + (v - 26)
  else if v < 62 then 48 + (v - 52)
  else if v = 62 then 43
  else 47

/-- Inverse alphabet: ASCII code to 6-bit value, `none` off-alphabet. -/
def b64Val (c : Nat) : Option Nat :=
  if 65 ≤ c ∧ c ≤ 90 then some (c - 65)
  else if 97 ≤ c ∧ c ≤ 122 then some (26 + (c - 97))
  else if 48 ≤ c ∧ c ≤ 57 then some (52 + (c - 48))
  else if c = 43 then some 62
  else if c = 47 then some 63
  else none

/-- ASCII code of the padding character `=`. -/
def padChar : Nat := 61

/-- Modelled from the spec: the standard (padded) base64 encoding that
produces the input fed to the streaming decoder in the round-trip property. -/
def b64encode : List Nat → List Nat
  | b0 :: b1 :: b2 :: rest =>
      b64Char (b0 / 4) :: b64Char (b0 % 4 * 16 + b1 / 16) ::
      b64Char (b1 % 16 * 4 + b2 / 64) :: b64Char (b2 % 64) :: b64encode rest
  | [b0, b1] => [b64Char (b0 / 4), b64Char (b0 % 4 * 16 + b1 / 16), b64Char (b1 % 16 * 4), padChar]
  | [b0] => [b64Char (b0 / 4), b64Char (b0 % 4 * 16), padChar, padChar]
  | [] => []

/-- The three plain bytes encoded by a full (unpadded) base64 group. -/
def decodeQuad (v0 v1 v2 v3 : Nat) : List Nat :=
  [v0 * 4 + v1 / 16, v1 % 16 * 16 + v2 / 4, v2 % 4 * 64 + v3]

/-- Modelled from the spec: decoding of the final (possibly padded, possibly
short) group of the stream, length at most 4.  A single leftover character is
an invalid length; `=` may only occupy the last one or two positions of a
4-character group. -/
def decodeTail : List Nat → Except DecodeError (List Nat)
  | [] => .ok []
  | [_] => .error .invalidLength
  | [c0, c1] =>
    match b64Val c0, b64Val c1 with
    | some v0, some v1 => .ok [v0 * 4 + v1 / 16]
    | _, _ => .error .invalidChar
  | [c0, c1, c2] =>
    match b64Val c0, b64Val c1, b64Val c2 with
    | some v0, some v1, some v2 => .ok [v0 * 4 + v1 / 16, v1 % 16 * 16 + v2 / 4]
    | _, _, _ => .error .invalidChar
  | [c0, c1, c2, c3] =>
    match b64Val c0, b64Val c1 with
    | some v0, some v1 =>
      if c2 = padChar then
        if c3 = padChar then .ok [v0 * 4 + v1 / 16] else .error .invalidPadding
      else
        match b64Val c2 with
        | some v2 =>
          if c3 = padChar then .ok [v0 * 4 + v1 / 16, v1 % 16 * 16 + v2 / 4]
          else
            match b64Val c3 with
            | some v3 => .ok (decodeQuad v0 v1 v2 v3)
            | none => .error .invalidChar
        | none => .error .invalidChar
    | _, _ => .error .invalidChar
  | _ => .error .invalidLength

/-- Modelled from the spec: the external decode primitive
(`base64::decode_config_slice` with the `STANDARD` configuration), treated by
the spec as a pure collaborator.  Full interior groups must be plain alphabet
characters; the final group may be padded or short. -/
def b64decode : List Nat → Except DecodeError (List Nat)
  | c0 :: c1 :: c2 :: c3 :: rest =>
    if rest = [] then decodeTail [c0, c1, c2, c3]
    else
      match b64Val c0, b64Val c1, b64Val c2, b64Val c3 with
      | some v0, some v1, some v2, some v3 =>
        match b64decode rest with
        | .ok out => .ok (decodeQuad v0 v1 v2 v3 ++ out)
        | .error e => .error e
      | _, _, _, _ => .error .invalidChar
  | short => decodeTail short

/-- The decoder state: the fields of `FromBase64Reader` other than the wrapped
source (which is passed separately to `read`), plus the ghost flag `oobCopy`
recording an out-of-bounds compaction copy. -/
structure Reader where
  buf : Nat → Nat
  buf_length : Nat
  buf_offset : Nat
  temp : Nat → Nat
  temp_length : Nat
  oobCopy : Bool

/-- `FromBase64Reader::new`: all counters zeroed, zero-filled buffers. -/
def Reader.new : Reader :=
  { buf := fun _ => 0, buf_length := 0, buf_offset := 0,
    temp := fun _ => 0, temp_length := 0, oobCopy := false }

/-- The `n` bytes of `f` starting at index `off`. -/
def readRange (f : Nat → Nat) (off n : Nat) : List Nat :=
  (List.range n).map fun i => f (off + i)

/-- `copy_nonoverlapping(data, f + off, data.len())`: overwrite the bytes of
`f` starting at `off` with `data`. -/
def writeBytes (f : Nat → Nat) (off : Nat) (data : List Nat) : Nat → Nat :=
  fun i => if off ≤ i ∧ i - off < data.length then data.getD (i - off) 0 else f i

/-- The valid, undecoded raw bytes: `buf[buf_offset .. buf_offset + buf_length]`. -/
def rawBytes (s : Reader) : List Nat :=
  readRange s.buf s.buf_offset s.buf_length

/-- The pending decoded-but-undelivered bytes: `temp[0 .. temp_length]`. -/
def tempBytes (s : Reader) : List Nat :=
  readRange s.temp 0 s.temp_length

/-- `FromBase64Reader::buf_left_shift`.  The compaction branch copies
`buf_length` bytes (the value before the final decrement) from the advanced
offset back to index 0, exactly as the source's `copy` call does; the ghost
`oobCopy` flag records when that copy touches an index `≥ BUFFER_SIZE`. -/
def buf_left_shift (s : Reader) (distance : Nat) : Reader :=
  let off := s.buf_offset + distance
  if BUFFER_SIZE - off < 32 then
    { s with
      buf := fun i => if i < s.buf_length then s.buf (off + i) else s.buf i,
      buf_offset := 0,
      buf_length := s.buf_length - distance,
      oobCopy := s.oobCopy || decide (0 < s.buf_length ∧ BUFFER_SIZE < off + s.buf_length) }
  else
    { s with buf_offset := off, buf_length := s.buf_length - distance }

/-- `FromBase64Reader::drain_temp`: deliver `min(buf.len(), temp_length)`
overflow bytes, move the remainder to the front (the source copies
`temp_length` bytes from the post-decrement `temp_length` offset), and return
the caller buffer's unfilled capacity.  The caller buffer is modelled by its
remaining capacity `k`; delivered bytes are returned as a list. -/
def drain_temp (s : Reader) (k : Nat) : List Nat × Nat × Reader :=
  let dl := min k s.temp_length
  let out := readRange s.temp 0 dl
  let tl := s.temp_length - dl
  (out, k - dl,
    { s with temp := fun i => if i < tl then s.temp (tl + i) else s.temp i,
             temp_length := tl })

/-- `FromBase64Reader::drain_block`: decode one group of `min(buf_length, 4)`
raw bytes into a 3-byte scratch, consume them via `buf_left_shift`, deliver
what fits into the caller's remaining capacity `k`, and park the rest in
`temp`. -/
def drain_block (s : Reader) (k : Nat) : Except DecodeError (List Nat × Nat × Reader) :=
  let dl := min s.buf_length 4
  match b64decode (readRange s.buf s.buf_offset dl) with
  | .error e => .error e
  | .ok b =>
    let s1 := buf_left_shift s dl
    if b.length ≤ k then
      .ok (b, k - b.length, s1)
    else
      .ok (b.take k, 0,
        { s1 with temp := writeBytes s1.temp 0 (b.drop k),
                  temp_length := b.length - k })

/-- `FromBase64Reader::drain`: overflow drain, then the bulk aligned decode
when at least 3 bytes of caller capacity remain, then a single-group decode
when capacity and at least 4 raw bytes remain.  The re-slice
`buf[decode_length..]` becomes the truncated subtraction `k1 - b.length`;
`bulk_decode_spec` (C8) shows the decoded count never exceeds `k1`, so the
source's slice operation cannot panic and the truncation is exact. -/
def drain (s : Reader) (k : Nat) : Except DecodeError (List Nat × Nat × Reader) :=
  if k = 0 then .ok ([], k, s)
  else
    let p1 := if 0 < s.temp_length then drain_temp s k else ([], k, s)
    let out1 := p1.1
    let k1 := p1.2.1
    let s1 := p1.2.2
    let bulk : Except DecodeError (List Nat × Nat × Reader) :=
      if 3 ≤ k1 then
        let drain_length := min (s1.buf_length - s1.buf_length % 4) (k1 / 3 * 4)
        match b64decode (readRange s1.buf s1.buf_offset drain_length) with
        | .error e => .error e
        | .ok b => .ok (b, k1 - b.length, buf_left_shift s1 drain_length)
      else .ok ([], k1, s1)
    match bulk with
    | .error e => .error e
    | .ok (out2, k2, s2) =>
      if 0 < k2 ∧ 4 ≤ s2.buf_length then
        match drain_block s2 k2 with
        | .error e => .error e
        | .ok (out3, k3, s3) => .ok (out1 ++ out2 ++ out3, k3, s3)
      else .ok (out1 ++ out2, k2, s2)

/-- `FromBase64Reader::drain_end`: overflow drain, then a single-group decode
of whatever raw bytes remain (may be fewer than 4) once the source is
exhausted. -/
def drain_end (s : Reader) (k : Nat) : Except DecodeError (List Nat × Nat × Reader) :=
  if k = 0 then .ok ([], k, s)
  else
    let p1 := if 0 < s.temp_length then drain_temp s k else ([], k, s)
    let out1 := p1.1
    let k1 := p1.2.1
    let s1 := p1.2.2
    if 0 < k1 ∧ 0 < s1.buf_length then
      match drain_block s1 k1 with
      | .error e => .error e
      | .ok (out3, k3, s3) => .ok (out1 ++ out3, k3, s3)
    else .ok (out1, k1, s1)

/-- Errors surfaced by `read`: source I/O errors propagated verbatim, and
decode errors wrapped (`io::Error::new(ErrorKind::Other, err)`). -/
inductive ErrKind where
  | interrupted
  | other (code : Nat)
deriving DecidableEq

/-- The result channel of `Read::read`. -/
inductive ReadError where
  | io (k : ErrKind)
  | decode (e : DecodeError)
deriving DecidableEq

/-- One scripted behaviour of the wrapped source for a single `read` call on
it: deliver some bytes (`chunk []` is an `Ok(0)` end-of-stream report), or
fail with an I/O error kind. -/
inductive SrcEvent where
  | chunk (data : List Nat)
  | fail (k : ErrKind)

/-- `<FromBase64Reader as Read>::read` against a scripted source: the fill
loop pulls source events while `buf_length < 4` (each event is one
`inner.read` call, its bytes truncated to the free tail space of `buf`, an
exhausted script reporting `Ok(0)` like an exhausted source), then dispatches
to `drain_end` / `drain`.  Returns the delivered bytes (whose length is the
returned count), the final state, and the unconsumed script. -/
def readScript (s : Reader) (src : List SrcEvent) (k : Nat) :
    Except ReadError (List Nat) × Reader × List SrcEvent :=
  if s.buf_length < 4 then
    match src with
    | [] =>
      match drain_end s k with
      | .error e => (.error (.decode e), s, [])
      | .ok (out, _, s') => (.ok out, s', [])
    | .chunk data :: rest =>
      let space := BUFFER_SIZE - (s.buf_offset + s.buf_length)
      let c := min data.length space
      if c = 0 then
        match drain_end s k with
        | .error e => (.error (.decode e), s, rest)
        | .ok (out, _, s') => (.ok out, s', rest)
      else
        readScript
          { s with buf := writeBytes s.buf (s.buf_offset + s.buf_length) (data.take c),
                   buf_length := s.buf_length + c }
          rest k
    | .fail .interrupted :: rest => readScript s rest k
    | .fail (.other n) :: rest => (.error (.io (.other n)), s, rest)
  else
    match drain s k with
    | .error e => (.error (.decode e), s, src)
    | .ok (out, _, s') => (.ok out, s', src)

/-- `<FromBase64Reader as Read>::read` where the wrapped source is an
in-memory cursor over `src` (each `inner.read` returns
`min(free tail space, bytes remaining)` bytes, as `io::Cursor` does — the
source used by the round-trip property). -/
def readCursor (s : Reader) (src : List Nat) (k : Nat) :
    Except ReadError (List Nat) × Reader × List Nat :=
  if s.buf_length < 4 then
    let space := BUFFER_SIZE - (s.buf_offset + s.buf_length)
    let c := min space src.length
    if c = 0 then
      match drain_end s k with
      | .error e => (.error (.decode e), s, src)
      | .ok (out, _, s') => (.ok out, s', src)
    else
      readCursor
        { s with buf := writeBytes s.buf (s.buf_offset + s.buf_length) (src.take c),
                 buf_length := s.buf_length + c }
        (src.drop c) k
  else
    match drain s k with
    | .error e => (.error (.decode e), s, src)
    | .ok (out, _, s') => (.ok out, s', src)
termination_by src.length
decreasing_by
  simp only [List.length_drop]
  omega

/-- Repeatedly call `read` with a `k`-byte caller buffer, concatenating the
delivered bytes, until a call delivers zero bytes; `none` on a read error or
fuel exhaustion. -/
def readAllGo : Nat → Reader → List Nat → Nat → Option (List Nat)
  | 0, _, _, _ => none
  | fuel + 1, s, src, k =>
    match readCursor s src k with
    | (.error _, _, _) => none
    | (.ok out, s', src') =>
      if out.isEmpty then some []
      else
        match readAllGo fuel s' src' k with
        | some more => some (out ++ more)
        | none => none

/-- Decode the standard base64 encoding of `B` through the streaming decoder
with caller-buffer size `k`, concatenating all reads. -/
def readAll (B : List Nat) (k : Nat) : Option (List Nat) :=
  readAllGo ((b64encode B).length + 1) Reader.new (b64encode B) k

/-! ### Basic lemmas about `readRange` and `writeBytes` -/

theorem readRange_length (f : Nat → Nat) (off n : Nat) :
    (readRange f off n).length = n := by
  simp [readRange]

theorem readRange_getElem (f : Nat → Nat) (off n i : Nat) (hi : i < (readRange f off n).length) :
    (readRange f off n)[i] = f (off + i) := by
  simp [readRange]

theorem readRange_drop (f : Nat → Nat) (off n d : Nat) :
    (readRange f off n).drop d = readRange f (off + d) (n - d) := by
  apply List.ext_getElem
  · simp [readRange_length]
  · intro i h1 h2
    rw [List.getElem_drop, readRange_getElem, readRange_getElem]
    congr 1
    omega

theorem readRange_take (f : Nat → Nat) (off n m : Nat) :
    (readRange f off n).take m = readRange f off (min m n) := by
  apply List.ext_getElem
  · simp [readRange_length]
  · intro i h1 h2
    rw [List.getElem_take, readRange_getElem, readRange_getElem]

theorem readRange_add (f : Nat → Nat) (off n c : Nat) :
    readRange f off (n + c) = readRange f off n ++ readRange f (off + n) c := by
  apply List.ext_getElem
  · simp [readRange_length]
  · intro i h1 h2
    rw [readRange_getElem]
    rcases Nat.lt_or_ge i n with hlt | hge
    · rw [List.getElem_append_left (by simpa [readRange_length] using hlt)]
      rw [readRange_getElem]
    · rw [List.getElem_append_right (by simpa [readRange_length] using hge)]
      rw [readRange_getElem]
      simp only [readRange_length]
      congr 1
      omega

theorem readRange_congr (f g : Nat → Nat) (off n : Nat)
    (h : ∀ i, i < n → f (off + i) = g (off + i)) :
    readRange f off n = readRange g off n := by
  apply List.ext_getElem
  · simp [readRange_length]
  · intro i h1 h2
    rw [readRange_getElem, readRange_getElem]
    exact h i (by simpa [readRange_length] using h1)

theorem writeBytes_inside (f : Nat → Nat) (off : Nat) (data : List Nat) (i : Nat)
    (h : i < data.length) (hd : data.length ≤ BUFFER_SIZE + BUFFER_SIZE) :
    writeBytes f off data (off + i) = data.getD i 0 := by
  simp only [writeBytes]
  rw [if_pos ⟨Nat.le_add_right off i, by omega⟩]
  congr 1
  omega

theorem writeBytes_before (f : Nat → Nat) (off : Nat) (data : List Nat) (i : Nat)
    (h : i < off) : writeBytes f off data i = f i := by
  simp only [writeBytes]
  rw [if_neg]
  omega

theorem writeBytes_after (f : Nat → Nat) (off : Nat) (data : List Nat) (i : Nat)
    (h : off + data.length ≤ i) : writeBytes f off data i = f i := by
  simp only [writeBytes]
  rw [if_neg]
  omega

theorem readRange_writeBytes_eq (f : Nat → Nat) (off : Nat) (data : List Nat) :
    readRange (writeBytes f off data) off data.length = data := by
  apply List.ext_getElem
  · simp [readRange_length]
  · intro i h1 h2
    rw [readRange_getElem]
    simp only [writeBytes]
    rw [if_pos ⟨Nat.le_add_right off i, by omega⟩]
    rw [show off + i - off = i by omega]
    exact List.getD_eq_getElem data 0 h2

theorem readRange_writeBytes_before (f : Nat → Nat) (woff : Nat) (data : List Nat)
    (off n : Nat) (h : off + n ≤ woff) :
    readRange (writeBytes f woff data) off n = readRange f off n := by
  apply readRange_congr
  intro i hi
  apply writeBytes_before
  omega

/-! ### Lemmas about the state operations -/

theorem rawBytes_buf_left_shift (s : Reader) (d : Nat) :
    rawBytes (buf_left_shift s d) = (rawBytes s).drop d := by
  simp only [rawBytes, buf_left_shift]
  by_cases h : BUFFER_SIZE - (s.buf_offset + d) < 32
  · rw [if_pos h]
    dsimp only
    rw [readRange_drop]
    apply List.ext_getElem
    · simp [readRange_length]
    · intro i h1 h2
      have hi : i < s.buf_length - d := by simpa [readRange_length] using h1
      rw [readRange_getElem, readRange_getElem]
      simp only [Nat.zero_add]
      rw [if_pos (by omega : i < s.buf_length)]
  · rw [if_neg h]
    dsimp only
    rw [readRange_drop]

theorem buf_length_buf_left_shift (s : Reader) (d : Nat) :
    (buf_left_shift s d).buf_length = s.buf_length - d := by
  simp only [buf_left_shift]
  by_cases h : BUFFER_SIZE - (s.buf_offset + d) < 32 <;> simp [h]

theorem buf_offset_buf_left_shift (s : Reader) (d : Nat) :
    (buf_left_shift s d).buf_offset =
      if BUFFER_SIZE - (s.buf_offset + d) < 32 then 0 else s.buf_offset + d := by
  simp only [buf_left_shift]
  by_cases h : BUFFER_SIZE - (s.buf_offset + d) < 32 <;> simp [h]

theorem temp_buf_left_shift (s : Reader) (d : Nat) :
    (buf_left_shift s d).temp = s.temp ∧ (buf_left_shift s d).temp_length = s.temp_length := by
  simp only [buf_left_shift]
  by_cases h : BUFFER_SIZE - (s.buf_offset + d) < 32 <;> simp [h]

/-- **C7.** `buf_left_shift(distance)`, under the precondition
`distance ≤ buf_length`, decrements `buf_length` by `distance`; it advances
`buf_offset` by `distance`, except that when the tail headroom
`BUFFER_SIZE - (buf_offset + distance)` drops below 32 it resets `buf_offset`
to 0 (moving the remaining bytes to index 0); and in every case the remaining
valid bytes observed through `buf[buf_offset .. buf_offset + buf_length]` are
exactly the previous valid bytes with the consumed `distance`-byte prefix
removed. -/
theorem buf_left_shift_spec (s : Reader) (distance : Nat) (hd : distance ≤ s.buf_length) :
    (buf_left_shift s distance).buf_length = s.buf_length - distance ∧
    (buf_left_shift s distance).buf_offset =
      (if BUFFER_SIZE - (s.buf_offset + distance) < 32 then 0 else s.buf_offset + distance) ∧
    rawBytes (buf_left_shift s distance) = (rawBytes s).drop distance := by
  exact ⟨buf_length_buf_left_shift s distance, buf_offset_buf_left_shift s distance,
    rawBytes_buf_left_shift s distance⟩

/-- Witness for `buf_left_shift_spec` at a concrete state and distance. -/
theorem buf_left_shift_spec_witness :
    (2 ≤ (Reader.new).buf_length + 2 ∧
      (buf_left_shift { Reader.new with buf_length := 5, buf_offset := 7 } 2).buf_length = 3 ∧
      (buf_left_shift { Reader.new with buf_length := 5, buf_offset := 7 } 2).buf_offset = 9) := by
  refine ⟨by simp, ?_, ?_⟩
  · exact (buf_left_shift_spec { Reader.new with buf_length := 5, buf_offset := 7 } 2
      (by simp)).1
  · have h := (buf_left_shift_spec { Reader.new with buf_length := 5, buf_offset := 7 } 2
      (by simp)).2.1
    rw [h]
    simp [BUFFER_SIZE]

/-! ### The out-of-bounds compaction copy -/

theorem b64decode_replicate_A (n : Nat) :
    b64decode (List.replicate (4 * n) 65) = .ok (List.replicate (3 * n) 0) := by
  induction n with
  | zero => rfl
  | succ m ih =>
    have h1 : 4 * (m + 1) = 4 + 4 * m := by ring
    have h2 : 3 * (m + 1) = 3 + 3 * m := by ring
    rw [h1, h2, List.replicate_add, List.replicate_add]
    rcases Nat.eq_zero_or_pos m with hm | hm
    · subst hm
      rfl
    · have hne : List.replicate (4 * m) 65 ≠ [] := by
        simp only [ne_eq, List.replicate_eq_nil_iff]
        omega
      show b64decode (65 :: 65 :: 65 :: 65 :: List.replicate (4 * m) 65) = _
      rw [b64decode, if_neg hne, ih]
      rfl

theorem readCursor_of_ge (s : Reader) (src : List Nat) (k : Nat)
    (h : ¬ s.buf_length < 4) :
    readCursor s src k =
      match drain s k with
      | .error e => (.error (.decode e), s, src)
      | .ok (out, _, s') => (.ok out, s', src) := by
  rw [readCursor, if_neg h]

theorem readCursor_fill (s : Reader) (src : List Nat) (k : Nat)
    (h : s.buf_length < 4)
    (hc : min (BUFFER_SIZE - (s.buf_offset + s.buf_length)) src.length ≠ 0) :
    readCursor s src k =
      readCursor
        { s with buf := writeBytes s.buf (s.buf_offset + s.buf_length)
                   (src.take (min (BUFFER_SIZE - (s.buf_offset + s.buf_length)) src.length)),
                 buf_length := s.buf_length +
                   (min (BUFFER_SIZE - (s.buf_offset + s.buf_length)) src.length) }
        (src.drop (min (BUFFER_SIZE - (s.buf_offset + s.buf_length)) src.length)) k := by
  rw [readCursor, if_pos h]
  simp [hc]

theorem readCursor_exhaust (s : Reader) (src : List Nat) (k : Nat)
    (h : s.buf_length < 4)
    (hc : min (BUFFER_SIZE - (s.buf_offset + s.buf_length)) src.length = 0) :
    readCursor s src k =
      match drain_end s k with
      | .error e => (.error (.decode e), s, src)
      | .ok (out, _, s') => (.ok out, s', src) := by
  rw [readCursor, if_pos h, if_pos hc]

/-- `drain` in the pure bulk case: caller capacity not yet exhausted, no
pending overflow, at least 3 bytes of capacity, the bulk decode succeeding,
and the trailing single-group step not firing. -/
theorem drain_no_block (s : Reader) (k : Nat) (b : List Nat)
    (hk0 : k ≠ 0) (ht : s.temp_length = 0) (hk3 : 3 ≤ k)
    (hdec : b64decode (readRange s.buf s.buf_offset
      (min (s.buf_length - s.buf_length % 4) (k / 3 * 4))) = .ok b)
    (hstop : ¬(0 < k - b.length ∧
      4 ≤ (buf_left_shift s (min (s.buf_length - s.buf_length % 4) (k / 3 * 4))).buf_length)) :
    drain s k = .ok (b, k - b.length,
      buf_left_shift s (min (s.buf_length - s.buf_length % 4) (k / 3 * 4))) := by
  rw [drain, if_neg hk0]
  simp only [ht, Nat.lt_irrefl, if_false, if_neg (by omega : ¬ (0:Nat) < 0)]
  simp only [if_pos hk3, hdec]
  simp only [if_neg hstop, List.nil_append]

/-- **C2.** Refuted: the compaction copy of `buf_left_shift` copies
`buf_length` bytes — the value *before* the decrement — starting at
`buf_offset + distance`, so under the claimed preconditions
(`distance ≤ buf_length`, `buf_offset + buf_length ≤ BUFFER_SIZE`) its source
range extends to `buf_offset + distance + buf_length`, which can exceed
`BUFFER_SIZE`.  First conjunct: the out-of-bounds copy is reached through
`read` from a fresh decoder, a source delivering 4096 base64 characters `A`,
and a 3072-byte caller buffer (the ghost `oobCopy` flag is raised).  Second
conjunct: at that very call the claim's preconditions hold
(`distance = 4096 ≤ buf_length = 4096`,
`buf_offset + buf_length = 0 + 4096 ≤ BUFFER_SIZE`), the compaction branch
fires, and yet the copy reads up to index
`buf_offset + distance + buf_length - 1 = 8191 ≥ BUFFER_SIZE`. -/
theorem compaction_copy_out_of_bounds :
    ((readCursor Reader.new (List.replicate BUFFER_SIZE 65) 3072).2.1.oobCopy = true) ∧
    ((4096 ≤ ({ Reader.new with buf_length := 4096 } : Reader).buf_length ∧
      ({ Reader.new with buf_length := 4096 } : Reader).buf_offset +
        ({ Reader.new with buf_length := 4096 } : Reader).buf_length ≤ BUFFER_SIZE) ∧
      BUFFER_SIZE - (({ Reader.new with buf_length := 4096 } : Reader).buf_offset + 4096) < 32 ∧
      (buf_left_shift { Reader.new with buf_length := 4096 } 4096).oobCopy = true ∧
      ¬(({ Reader.new with buf_length := 4096 } : Reader).buf_offset + 4096 + 4096 - 1 <
        BUFFER_SIZE)) := by
  constructor
  · rw [readCursor_fill Reader.new (List.replicate BUFFER_SIZE 65) 3072
      (by norm_num [Reader.new]) (by norm_num [Reader.new, BUFFER_SIZE])]
    simp only [Reader.new, List.length_replicate, BUFFER_SIZE]
    norm_num
    rw [readCursor_of_ge _ _ _ (by norm_num)]
    have hdl : min ((4096:Nat) - 4096 % 4) (3072 / 3 * 4) = 4096 := by norm_num
    have h1 := readRange_writeBytes_eq (fun _ => (0:Nat)) 0 (List.replicate 4096 65)
    rw [List.length_replicate] at h1
    have h2 := b64decode_replicate_A 1024
    norm_num at h2
    rw [drain_no_block _ _ (List.replicate 3072 0) (by norm_num) rfl (by norm_num)
      (by rw [hdl]; show b64decode (readRange (writeBytes (fun _ => (0:Nat)) 0
          (List.replicate 4096 65)) 0 4096) = .ok (List.replicate 3072 0)
          rw [h1]; exact h2)
      (by rw [List.length_replicate]; norm_num)]
    dsimp only
    rw [hdl]
    rw [buf_left_shift]
    rw [if_pos (by norm_num [BUFFER_SIZE] : BUFFER_SIZE - ((0:Nat) + 4096) < 32)]
    decide
  · refine ⟨⟨by norm_num, by norm_num [Reader.new, BUFFER_SIZE]⟩,
      by norm_num [Reader.new, BUFFER_SIZE], ?_, by norm_num [Reader.new, BUFFER_SIZE]⟩
    rw [buf_left_shift]
    rw [if_pos (by norm_num [Reader.new, BUFFER_SIZE] :
      BUFFER_SIZE - (({ Reader.new with buf_length := 4096 } : Reader).buf_offset + 4096) < 32)]
    decide

/-! ### Bounds on the decode primitive's output length -/

theorem decodeTail_ok (l b : List Nat) (h : decodeTail l = .ok b) :
    (l.length = 0 ∧ b.length = 0) ∨ (l.length = 2 ∧ b.length = 1) ∨
    (l.length = 3 ∧ b.length = 2) ∨ (l.length = 4 ∧ 1 ≤ b.length ∧ b.length ≤ 3) := by
  match l with
  | [] => simp [decodeTail] at h; simp [← h]
  | [c0] => simp [decodeTail] at h
  | [c0, c1] =>
    rw [decodeTail] at h
    split at h <;> try simp_all
    subst h; simp
  | [c0, c1, c2] =>
    rw [decodeTail] at h
    split at h <;> try simp_all
    subst h; simp
  | [c0, c1, c2, c3] =>
    rw [decodeTail] at h
    split at h
    case h_2 => simp at h
    case h_1 v0 v1 heq0 heq1 =>
      by_cases hc2 : c2 = padChar
      · rw [if_pos hc2] at h
        by_cases hc3 : c3 = padChar
        · rw [if_pos hc3] at h; injection h with h; subst h; simp
        · rw [if_neg hc3] at h; simp at h
      · rw [if_neg hc2] at h
        cases hv2 : b64Val c2 with
        | none => simp only [hv2] at h; simp at h
        | some v2 =>
          simp only [hv2] at h
          by_cases hc3 : c3 = padChar
          · rw [if_pos hc3] at h; injection h with h; subst h; simp
          · rw [if_neg hc3] at h
            cases hv3 : b64Val c3 with
            | none => simp only [hv3] at h; simp at h
            | some v3 =>
              simp only [hv3] at h
              injection h with h; subst h; simp [decodeQuad]
  | c0 :: c1 :: c2 :: c3 :: c4 :: rest => simp [decodeTail] at h

theorem b64decode_ok_bounds (l : List Nat) :
    ∀ b, b64decode l = .ok b → 4 * b.length ≤ 3 * l.length ∧ (l ≠ [] → 0 < b.length) := by
  induction l using b64decode.induct with
  | case1 c0 c1 c2 c3 =>
    intro b h
    rw [b64decode, if_pos rfl] at h
    rcases decodeTail_ok _ _ h with ⟨h1, h2⟩ | ⟨h1, h2⟩ | ⟨h1, h2⟩ | ⟨h1, h2, h3⟩ <;>
      simp_all <;> omega
  | case2 c0 c1 c2 c3 rest hne v0 v1 v2 v3 h3 h2 h1 h0 out hrest IH =>
    intro b h
    rw [b64decode, if_neg hne] at h
    simp only [h0, h1, h2, h3, hrest] at h
    injection h with h
    subst h
    have hb := IH out hrest
    simp only [decodeQuad, List.length_append, List.length_cons, List.length_nil]
    refine ⟨?_, fun _ => ?_⟩ <;> omega
  | case3 c0 c1 c2 c3 rest hne v0 v1 v2 v3 h3 h2 h1 h0 e hrest IH =>
    intro b h
    rw [b64decode, if_neg hne] at h
    simp only [h0, h1, h2, h3, hrest] at h
    simp at h
  | case4 c0 c1 c2 c3 rest hne hfail =>
    intro b h
    rw [b64decode, if_neg hne] at h
    split at h
    case h_1 v0 v1 v2 v3 heq0 heq1 heq2 heq3 =>
      exact (hfail v0 v1 v2 v3 heq0 heq1 heq2 heq3).elim
    case h_2 => simp at h
  | case5 short hshort =>
    intro b h
    match short, hshort with
    | [], _ =>
      rw [show b64decode [] = decodeTail [] from rfl] at h
      rcases decodeTail_ok _ _ h with ⟨h1, h2⟩ | ⟨h1, h2⟩ | ⟨h1, h2⟩ | ⟨h1, h2, h3⟩ <;>
        simp_all
    | [c0], _ =>
      rw [show b64decode [c0] = decodeTail [c0] from rfl] at h
      rcases decodeTail_ok _ _ h with ⟨h1, h2⟩ | ⟨h1, h2⟩ | ⟨h1, h2⟩ | ⟨h1, h2, h3⟩ <;>
        simp_all
    | [c0, c1], _ =>
      rw [show b64decode [c0, c1] = decodeTail [c0, c1] from rfl] at h
      rcases decodeTail_ok _ _ h with ⟨h1, h2⟩ | ⟨h1, h2⟩ | ⟨h1, h2⟩ | ⟨h1, h2, h3⟩ <;>
        simp_all <;> omega
    | [c0, c1, c2], _ =>
      rw [show b64decode [c0, c1, c2] = decodeTail [c0, c1, c2] from rfl] at h
      rcases decodeTail_ok _ _ h with ⟨h1, h2⟩ | ⟨h1, h2⟩ | ⟨h1, h2⟩ | ⟨h1, h2, h3⟩ <;>
        simp_all <;> omega
    | c0 :: c1 :: c2 :: c3 :: rest, hs => exact (hs c0 c1 c2 c3 rest rfl).elim

theorem b64decode_length_le (l b : List Nat) (h : b64decode l = .ok b) :
    b.length ≤ 3 * l.length / 4 := by
  have := (b64decode_ok_bounds l b h).1
  omega

theorem b64decode_ok_pos (l b : List Nat) (h : b64decode l = .ok b) (hl : l ≠ []) :
    0 < b.length :=
  (b64decode_ok_bounds l b h).2 hl

/-! ### Characterization of the drain operations -/

theorem drain_temp_spec (s : Reader) (k : Nat) (hk : 0 < k) (ht : s.temp_length ≤ 2) :
    (drain_temp s k).1 = (tempBytes s).take (min k s.temp_length) ∧
    (drain_temp s k).2.1 = k - min k s.temp_length ∧
    (drain_temp s k).2.2.temp_length = s.temp_length - min k s.temp_length ∧
    tempBytes (drain_temp s k).2.2 = (tempBytes s).drop (min k s.temp_length) ∧
    (drain_temp s k).2.2.buf = s.buf ∧
    (drain_temp s k).2.2.buf_length = s.buf_length ∧
    (drain_temp s k).2.2.buf_offset = s.buf_offset ∧
    (drain_temp s k).2.2.oobCopy = s.oobCopy := by
  refine ⟨?_, rfl, rfl, ?_, rfl, rfl, rfl, rfl⟩
  · rw [drain_temp]
    dsimp only
    rw [tempBytes, readRange_take]
    congr 1
    omega
  · rw [drain_temp]
    dsimp only
    rw [tempBytes, tempBytes, readRange_drop]
    dsimp only
    apply List.ext_getElem
    · simp [readRange_length]
    · intro i h1 h2
      rw [readRange_getElem, readRange_getElem]
      have hi : i < s.temp_length - min k s.temp_length := by
        simpa [readRange_length] using h1
      simp only [Nat.zero_add]
      rw [if_pos (by omega : i < s.temp_length - min k s.temp_length)]
      congr 1
      omega


theorem drain_block_ok (s : Reader) (k : Nat) (out : List Nat) (k' : Nat) (s' : Reader)
    (h : drain_block s k = .ok (out, k', s')) :
    ∃ b, b64decode (readRange s.buf s.buf_offset (min s.buf_length 4)) = .ok b ∧
      ((b.length ≤ k ∧ out = b ∧ k' = k - b.length ∧
          s' = buf_left_shift s (min s.buf_length 4)) ∨
       (k < b.length ∧ out = b.take k ∧ k' = 0 ∧
          s' = { buf_left_shift s (min s.buf_length 4) with
                   temp := writeBytes (buf_left_shift s (min s.buf_length 4)).temp 0 (b.drop k),
                   temp_length := b.length - k })) := by
  rw [drain_block] at h
  cases hdec : b64decode (readRange s.buf s.buf_offset (min s.buf_length 4)) with
  | error e => simp only [hdec] at h; simp at h
  | ok b =>
    simp only [hdec] at h
    refine ⟨b, rfl, ?_⟩
    by_cases hbk : b.length ≤ k
    · rw [if_pos hbk] at h
      left
      simp only [Except.ok.injEq, Prod.mk.injEq] at h
      obtain ⟨h1, h2, h3⟩ := h
      exact ⟨hbk, h1.symm, h2.symm, h3.symm⟩
    · rw [if_neg hbk] at h
      right
      simp only [Except.ok.injEq, Prod.mk.injEq] at h
      obtain ⟨h1, h2, h3⟩ := h
      exact ⟨by omega, h1.symm, h2.symm, h3.symm⟩


theorem drain_ok (s : Reader) (k : Nat) (out : List Nat) (k' : Nat) (s' : Reader)
    (h : drain s k = .ok (out, k', s')) :
    (k = 0 ∧ out = [] ∧ k' = k ∧ s' = s) ∨
    (0 < k ∧ ∃ out1 k1 s1 out2 k2 s2 out3,
      (if 0 < s.temp_length then drain_temp s k else ([], k, s)) = (out1, k1, s1) ∧
      ((3 ≤ k1 ∧ ∃ b,
          b64decode (readRange s1.buf s1.buf_offset
            (min (s1.buf_length - s1.buf_length % 4) (k1 / 3 * 4))) = .ok b ∧
          out2 = b ∧ k2 = k1 - b.length ∧
          s2 = buf_left_shift s1 (min (s1.buf_length - s1.buf_length % 4) (k1 / 3 * 4))) ∨
       (k1 < 3 ∧ out2 = [] ∧ k2 = k1 ∧ s2 = s1)) ∧
      out = out1 ++ out2 ++ out3 ∧
      ((0 < k2 ∧ 4 ≤ s2.buf_length ∧ drain_block s2 k2 = .ok (out3, k', s')) ∨
       (¬(0 < k2 ∧ 4 ≤ s2.buf_length) ∧ out3 = [] ∧ k' = k2 ∧ s' = s2))) := by
  rw [drain] at h
  by_cases hk : k = 0
  · rw [if_pos hk] at h
    simp only [Except.ok.injEq, Prod.mk.injEq] at h
    exact Or.inl ⟨hk, h.1.symm, h.2.1.symm, h.2.2.symm⟩
  · rw [if_neg hk] at h
    right
    refine ⟨by omega, ?_⟩
    rcases hp : (if 0 < s.temp_length then drain_temp s k else ([], k, s)) with ⟨out1, k1, s1⟩
    rw [hp] at h
    dsimp only at h
    by_cases h3 : 3 ≤ k1
    · rw [if_pos h3] at h
      cases hdec : b64decode (readRange s1.buf s1.buf_offset
          (min (s1.buf_length - s1.buf_length % 4) (k1 / 3 * 4))) with
      | error e => rw [hdec] at h; simp at h
      | ok b =>
        rw [hdec] at h
        dsimp only at h
        by_cases hg : 0 < k1 - b.length ∧
            4 ≤ (buf_left_shift s1 (min (s1.buf_length - s1.buf_length % 4) (k1 / 3 * 4))).buf_length
        · rw [if_pos hg] at h
          cases hdb : drain_block
              (buf_left_shift s1 (min (s1.buf_length - s1.buf_length % 4) (k1 / 3 * 4)))
              (k1 - b.length) with
          | error e => rw [hdb] at h; simp at h
          | ok r =>
            rcases r with ⟨out3, k3, s3⟩
            rw [hdb] at h
            simp only [Except.ok.injEq, Prod.mk.injEq] at h
            obtain ⟨h1, h2, hs⟩ := h
            subst h2
            subst hs
            exact ⟨out1, k1, s1, b, k1 - b.length, _, out3, rfl,
              Or.inl ⟨h3, b, hdec, rfl, rfl, rfl⟩, h1.symm, Or.inl ⟨hg.1, hg.2, hdb⟩⟩
        · rw [if_neg hg] at h
          simp only [Except.ok.injEq, Prod.mk.injEq] at h
          obtain ⟨h1, h2, hs⟩ := h
          refine ⟨out1, k1, s1, b, k1 - b.length, _, [], rfl,
            Or.inl ⟨h3, b, hdec, rfl, rfl, rfl⟩, by rw [← h1]; simp, Or.inr ⟨hg, rfl, h2.symm, hs.symm⟩⟩
    · rw [if_neg h3] at h
      dsimp only at h
      by_cases hg : 0 < k1 ∧ 4 ≤ s1.buf_length
      · rw [if_pos hg] at h
        cases hdb : drain_block s1 k1 with
        | error e => rw [hdb] at h; simp at h
        | ok r =>
          rcases r with ⟨out3, k3, s3⟩
          rw [hdb] at h
          simp only [Except.ok.injEq, Prod.mk.injEq] at h
          obtain ⟨h1, h2, hs⟩ := h
          subst h2
          subst hs
          exact ⟨out1, k1, s1, [], k1, s1, out3, rfl,
            Or.inr ⟨by omega, rfl, rfl, rfl⟩, h1.symm, Or.inl ⟨hg.1, hg.2, hdb⟩⟩
      · rw [if_neg hg] at h
        simp only [Except.ok.injEq, Prod.mk.injEq] at h
        obtain ⟨h1, h2, hs⟩ := h
        exact ⟨out1, k1, s1, [], k1, s1, [], rfl, Or.inr ⟨by omega, rfl, rfl, rfl⟩,
          by rw [← h1]; simp, Or.inr ⟨hg, rfl, h2.symm, hs.symm⟩⟩


theorem drain_end_ok (s : Reader) (k : Nat) (out : List Nat) (k' : Nat) (s' : Reader)
    (h : drain_end s k = .ok (out, k', s')) :
    (k = 0 ∧ out = [] ∧ k' = k ∧ s' = s) ∨
    (0 < k ∧ ∃ out1 k1 s1 out3,
      (if 0 < s.temp_length then drain_temp s k else ([], k, s)) = (out1, k1, s1) ∧
      out = out1 ++ out3 ∧
      ((0 < k1 ∧ 0 < s1.buf_length ∧ drain_block s1 k1 = .ok (out3, k', s')) ∨
       (¬(0 < k1 ∧ 0 < s1.buf_length) ∧ out3 = [] ∧ k' = k1 ∧ s' = s1))) := by
  rw [drain_end] at h
  by_cases hk : k = 0
  · rw [if_pos hk] at h
    simp only [Except.ok.injEq, Prod.mk.injEq] at h
    exact Or.inl ⟨hk, h.1.symm, h.2.1.symm, h.2.2.symm⟩
  · rw [if_neg hk] at h
    right
    refine ⟨by omega, ?_⟩
    rcases hp : (if 0 < s.temp_length then drain_temp s k else ([], k, s)) with ⟨out1, k1, s1⟩
    rw [hp] at h
    dsimp only at h
    by_cases hg : 0 < k1 ∧ 0 < s1.buf_length
    · rw [if_pos hg] at h
      cases hdb : drain_block s1 k1 with
      | error e => rw [hdb] at h; simp at h
      | ok r =>
        rcases r with ⟨out3, k3, s3⟩
        rw [hdb] at h
        simp only [Except.ok.injEq, Prod.mk.injEq] at h
        obtain ⟨h1, h2, hs⟩ := h
        subst h2
        subst hs
        exact ⟨out1, k1, s1, out3, rfl, h1.symm, Or.inl ⟨hg.1, hg.2, hdb⟩⟩
    · rw [if_neg hg] at h
      simp only [Except.ok.injEq, Prod.mk.injEq] at h
      obtain ⟨h1, h2, hs⟩ := h
      exact ⟨out1, k1, s1, [], rfl, by rw [← h1]; simp, Or.inr ⟨hg, rfl, h2.symm, hs.symm⟩⟩

end Base64Stream
namespace Base64Stream

/-- The state invariants of the decoder (claim C6; `0 ≤ _` is implicit in
`Nat`): the valid region fits in the array and the overflow buffer holds at
most 2 bytes. -/
def Inv (s : Reader) : Prop :=
  s.buf_length ≤ BUFFER_SIZE ∧ s.buf_offset + s.buf_length ≤ BUFFER_SIZE ∧ s.temp_length ≤ 2

theorem inv_new : Inv Reader.new := by
  refine ⟨?_, ?_, ?_⟩ <;> simp [Reader.new, BUFFER_SIZE]

theorem inv_buf_left_shift (s : Reader) (d : Nat) (h : Inv s) : Inv (buf_left_shift s d) := by
  obtain ⟨h1, h2, h3⟩ := h
  rw [buf_left_shift]
  by_cases hc : BUFFER_SIZE - (s.buf_offset + d) < 32
  · rw [if_pos hc]
    refine ⟨?_, ?_, by dsimp only; exact h3⟩ <;> dsimp only <;>
      simp only [BUFFER_SIZE] at * <;> omega
  · rw [if_neg hc]
    refine ⟨?_, ?_, by dsimp only; exact h3⟩ <;> dsimp only <;>
      simp only [BUFFER_SIZE] at * <;> omega

theorem inv_drain_temp (s : Reader) (k : Nat) (h : Inv s) : Inv (drain_temp s k).2.2 := by
  obtain ⟨h1, h2, h3⟩ := h
  rw [drain_temp]
  exact ⟨h1, h2, by dsimp only; omega⟩

theorem inv_drain_block (s : Reader) (k : Nat) (out : List Nat) (k' : Nat) (s' : Reader)
    (hInv : Inv s) (hk : 0 < k) (h : drain_block s k = .ok (out, k', s')) : Inv s' := by
  obtain ⟨b, hdec, hcase⟩ := drain_block_ok s k out k' s' h
  have hblen : b.length ≤ 3 := by
    have := b64decode_length_le _ _ hdec
    rw [readRange_length] at this
    omega
  rcases hcase with ⟨hbk, _, _, hs⟩ | ⟨hbk, _, _, hs⟩
  · rw [hs]
    exact inv_buf_left_shift s _ hInv
  · rw [hs]
    obtain ⟨g1, g2, g3⟩ := inv_buf_left_shift s (min s.buf_length 4) hInv
    exact ⟨g1, g2, by dsimp only; omega⟩

theorem inv_after_temp_stage (s : Reader) (k : Nat) (out1 : List Nat) (k1 : Nat) (s1 : Reader) (hInv : Inv s)
    (hp : (if 0 < s.temp_length then drain_temp s k else (([] : List Nat), k, s)) =
      (out1, k1, s1)) : Inv s1 := by
  by_cases ht : 0 < s.temp_length
  · rw [if_pos ht] at hp
    have h2 := inv_drain_temp s k hInv
    rw [hp] at h2
    exact h2
  · rw [if_neg ht] at hp
    simp only [Prod.mk.injEq] at hp
    rw [← hp.2.2]
    exact hInv

theorem inv_drain (s : Reader) (k : Nat) (out : List Nat) (k' : Nat) (s' : Reader)
    (hInv : Inv s) (h : drain s k = .ok (out, k', s')) : Inv s' := by
  rcases drain_ok s k out k' s' h with ⟨_, _, _, hs⟩ |
    ⟨hk, out1, k1, s1, out2, k2, s2, out3, hp, hbulk, houts, hfinal⟩
  · rw [hs]; exact hInv
  · have hInv1 : Inv s1 := inv_after_temp_stage s k out1 k1 s1 hInv hp
    have hInv2 : Inv s2 := by
      rcases hbulk with ⟨_, b, hdec, _, _, hs2⟩ | ⟨_, _, _, hs2⟩
      · rw [hs2]; exact inv_buf_left_shift s1 _ hInv1
      · rw [hs2]; exact hInv1
    rcases hfinal with ⟨hk2, _, hdb⟩ | ⟨_, _, hk', hs'⟩
    · exact inv_drain_block s2 k2 out3 k' s' hInv2 hk2 hdb
    · rw [hs']; exact hInv2

theorem inv_drain_end (s : Reader) (k : Nat) (out : List Nat) (k' : Nat) (s' : Reader)
    (hInv : Inv s) (h : drain_end s k = .ok (out, k', s')) : Inv s' := by
  rcases drain_end_ok s k out k' s' h with ⟨_, _, _, hs⟩ |
    ⟨hk, out1, k1, s1, out3, hp, houts, hfinal⟩
  · rw [hs]; exact hInv
  · have hInv1 : Inv s1 := inv_after_temp_stage s k out1 k1 s1 hInv hp
    rcases hfinal with ⟨hk1, _, hdb⟩ | ⟨_, _, hk', hs'⟩
    · exact inv_drain_block s1 k1 out3 k' s' hInv1 hk1 hdb
    · rw [hs']; exact hInv1

end Base64Stream
namespace Base64Stream

theorem readScript_of_ge (s : Reader) (src : List SrcEvent) (k : Nat)
    (h : ¬ s.buf_length < 4) :
    readScript s src k =
      match drain s k with
      | .error e => (.error (.decode e), s, src)
      | .ok (out, _, s') => (.ok out, s', src) := by
  rw [readScript.eq_def, if_neg h]

theorem readScript_nil (s : Reader) (k : Nat) (h : s.buf_length < 4) :
    readScript s [] k =
      match drain_end s k with
      | .error e => (.error (.decode e), s, [])
      | .ok (out, _, s') => (.ok out, s', []) := by
  rw [readScript.eq_def, if_pos h]

theorem readScript_chunk_exhaust (s : Reader) (data : List Nat) (rest : List SrcEvent) (k : Nat)
    (h : s.buf_length < 4)
    (hc : min data.length (BUFFER_SIZE - (s.buf_offset + s.buf_length)) = 0) :
    readScript s (.chunk data :: rest) k =
      match drain_end s k with
      | .error e => (.error (.decode e), s, rest)
      | .ok (out, _, s') => (.ok out, s', rest) := by
  rw [readScript.eq_def, if_pos h]
  dsimp only
  rw [if_pos hc]

theorem readScript_chunk_fill (s : Reader) (data : List Nat) (rest : List SrcEvent) (k : Nat)
    (h : s.buf_length < 4)
    (hc : min data.length (BUFFER_SIZE - (s.buf_offset + s.buf_length)) ≠ 0) :
    readScript s (.chunk data :: rest) k =
      readScript
        { s with buf := writeBytes s.buf (s.buf_offset + s.buf_length)
                   (data.take (min data.length (BUFFER_SIZE - (s.buf_offset + s.buf_length)))),
                 buf_length := s.buf_length +
                   min data.length (BUFFER_SIZE - (s.buf_offset + s.buf_length)) }
        rest k := by
  rw [readScript.eq_def, if_pos h]
  dsimp only
  rw [if_neg hc]

theorem readScript_interrupted (s : Reader) (rest : List SrcEvent) (k : Nat)
    (h : s.buf_length < 4) :
    readScript s (.fail .interrupted :: rest) k = readScript s rest k := by
  rw [readScript.eq_def, if_pos h]

theorem readScript_fail (s : Reader) (n : Nat) (rest : List SrcEvent) (k : Nat)
    (h : s.buf_length < 4) :
    readScript s (.fail (.other n) :: rest) k = (.error (.io (.other n)), s, rest) := by
  rw [readScript.eq_def, if_pos h]

theorem inv_drain_dispatch {A : Type} (s : Reader) (k : Nat) (src : A) (hInv : Inv s) :
    Inv (match drain s k with
      | .error e => ((.error (.decode e) : Except ReadError (List Nat)), s, src)
      | .ok (out, _, s') => (.ok out, s', src)).2.1 := by
  cases hd : drain s k with
  | error e => exact hInv
  | ok r =>
    rcases r with ⟨out, k2, s'⟩
    exact inv_drain s k out k2 s' hInv hd

theorem inv_drain_end_dispatch {A : Type} (s : Reader) (k : Nat) (src : A) (hInv : Inv s) :
    Inv (match drain_end s k with
      | .error e => ((.error (.decode e) : Except ReadError (List Nat)), s, src)
      | .ok (out, _, s') => (.ok out, s', src)).2.1 := by
  cases hd : drain_end s k with
  | error e => exact hInv
  | ok r =>
    rcases r with ⟨out, k2, s'⟩
    exact inv_drain_end s k out k2 s' hInv hd

theorem inv_fill_step (s : Reader) (data : List Nat) (hInv : Inv s) :
    Inv { s with
      buf := writeBytes s.buf (s.buf_offset + s.buf_length)
        (data.take (min data.length (BUFFER_SIZE - (s.buf_offset + s.buf_length)))),
      buf_length := s.buf_length +
        min data.length (BUFFER_SIZE - (s.buf_offset + s.buf_length)) } := by
  obtain ⟨h1, h2, h3⟩ := hInv
  refine ⟨?_, ?_, by dsimp only; exact h3⟩ <;> dsimp only <;> omega

theorem inv_readScript (s : Reader) (src : List SrcEvent) (k : Nat) (hInv : Inv s) :
    Inv (readScript s src k).2.1 := by
  induction src generalizing s with
  | nil =>
    by_cases h4 : s.buf_length < 4
    · rw [readScript_nil s k h4]
      exact inv_drain_end_dispatch s k _ hInv
    · rw [readScript_of_ge s [] k h4]
      exact inv_drain_dispatch s k _ hInv
  | cons ev rest IH =>
    by_cases h4 : s.buf_length < 4
    · cases ev with
      | chunk data =>
        by_cases hc : min data.length (BUFFER_SIZE - (s.buf_offset + s.buf_length)) = 0
        · rw [readScript_chunk_exhaust s data rest k h4 hc]
          exact inv_drain_end_dispatch s k _ hInv
        · rw [readScript_chunk_fill s data rest k h4 hc]
          exact IH _ (inv_fill_step s data hInv)
      | fail kk =>
        cases kk with
        | interrupted =>
          rw [readScript_interrupted s rest k h4]
          exact IH _ hInv
        | other n =>
          rw [readScript_fail s n rest k h4]
          exact hInv
    · rw [readScript_of_ge s (ev :: rest) k h4]
      exact inv_drain_dispatch s k _ hInv

theorem inv_readCursor (s : Reader) (src : List Nat) (k : Nat) (hInv : Inv s) :
    Inv (readCursor s src k).2.1 := by
  have H : ∀ (n : Nat) (s : Reader) (src : List Nat), src.length ≤ n → Inv s →
      Inv (readCursor s src k).2.1 := by
    intro n
    induction n with
    | zero =>
      intro s src hlen hI
      by_cases h4 : s.buf_length < 4
      · have hc : min (BUFFER_SIZE - (s.buf_offset + s.buf_length)) src.length = 0 := by omega
        rw [readCursor_exhaust s src k h4 hc]
        exact inv_drain_end_dispatch s k _ hI
      · rw [readCursor_of_ge s src k h4]
        exact inv_drain_dispatch s k _ hI
    | succ n IH =>
      intro s src hlen hI
      by_cases h4 : s.buf_length < 4
      · by_cases hc : min (BUFFER_SIZE - (s.buf_offset + s.buf_length)) src.length = 0
        · rw [readCursor_exhaust s src k h4 hc]
          exact inv_drain_end_dispatch s k _ hI
        · rw [readCursor_fill s src k h4 hc]
          refine IH _ _ (by simp only [List.length_drop]; omega) ?_
          have := inv_fill_step s src hI
          rw [min_comm src.length (BUFFER_SIZE - (s.buf_offset + s.buf_length))] at this
          exact this
      · rw [readCursor_of_ge s src k h4]
        exact inv_drain_dispatch s k _ hI
  exact H src.length s src le_rfl hInv

end Base64Stream
namespace Base64Stream

/-- **C6.** Every operation of the decoder — construction, both read
embeddings, and the internal `buf_left_shift`, `drain_temp`, `drain_block`,
`drain`, `drain_end` — preserves the state invariants
`buf_length ≤ BUFFER_SIZE`, `buf_offset + buf_length ≤ BUFFER_SIZE` and
`temp_length ≤ 2` (the lower bounds `0 ≤ _` are implicit in `Nat`);
`drain_block` is taken under its documented precondition of a non-empty
caller buffer. -/
theorem state_invariants_preserved :
    Inv Reader.new ∧
    (∀ s d, Inv s → Inv (buf_left_shift s d)) ∧
    (∀ s k, Inv s → Inv (drain_temp s k).2.2) ∧
    (∀ s k out k' s', Inv s → 0 < k → drain_block s k = .ok (out, k', s') → Inv s') ∧
    (∀ s k out k' s', Inv s → drain s k = .ok (out, k', s') → Inv s') ∧
    (∀ s k out k' s', Inv s → drain_end s k = .ok (out, k', s') → Inv s') ∧
    (∀ s src k, Inv s → Inv (readScript s src k).2.1) ∧
    (∀ s src k, Inv s → Inv (readCursor s src k).2.1) :=
  ⟨inv_new,
   fun s d h => inv_buf_left_shift s d h,
   fun s k h => inv_drain_temp s k h,
   fun s k out k' s' h hk hd => inv_drain_block s k out k' s' h hk hd,
   fun s k out k' s' h hd => inv_drain s k out k' s' h hd,
   fun s k out k' s' h hd => inv_drain_end s k out k' s' h hd,
   fun s src k h => inv_readScript s src k h,
   fun s src k h => inv_readCursor s src k h⟩

/-- Witness for `state_invariants_preserved` at concrete inputs. -/
theorem state_invariants_preserved_witness :
    Inv Reader.new ∧ Inv (buf_left_shift Reader.new 3) ∧
    Inv (readCursor Reader.new [83, 71, 86, 115] 2).2.1 :=
  ⟨state_invariants_preserved.1,
   state_invariants_preserved.2.1 Reader.new 3 state_invariants_preserved.1,
   state_invariants_preserved.2.2.2.2.2.2.2 Reader.new [83, 71, 86, 115] 2
     state_invariants_preserved.1⟩

end Base64Stream
namespace Base64Stream

/-- The headroom invariant of claim C10: the read offset never comes closer
than 32 bytes to the end of the array. -/
def OffInv (s : Reader) : Prop := s.buf_offset ≤ BUFFER_SIZE - 32

theorem offinv_buf_left_shift (s : Reader) (d : Nat) : OffInv (buf_left_shift s d) := by
  rw [buf_left_shift]
  by_cases hc : BUFFER_SIZE - (s.buf_offset + d) < 32
  · rw [if_pos hc]
    show (0 : Nat) ≤ BUFFER_SIZE - 32
    omega
  · rw [if_neg hc]
    show s.buf_offset + d ≤ BUFFER_SIZE - 32
    omega

theorem offinv_drain_block (s : Reader) (k : Nat) (out : List Nat) (k' : Nat) (s' : Reader)
    (h : drain_block s k = .ok (out, k', s')) : OffInv s' := by
  obtain ⟨b, hdec, hcase⟩ := drain_block_ok s k out k' s' h
  rcases hcase with ⟨_, _, _, hs⟩ | ⟨_, _, _, hs⟩
  · rw [hs]
    exact offinv_buf_left_shift s _
  · rw [hs]
    exact offinv_buf_left_shift s _

theorem offinv_after_temp_stage (s : Reader) (k : Nat) (out1 : List Nat) (k1 : Nat)
    (s1 : Reader) (hOff : OffInv s)
    (hp : (if 0 < s.temp_length then drain_temp s k else (([] : List Nat), k, s)) =
      (out1, k1, s1)) : OffInv s1 := by
  by_cases ht : 0 < s.temp_length
  · rw [if_pos ht, drain_temp] at hp
    simp only [Prod.mk.injEq] at hp
    rw [OffInv, ← hp.2.2]
    exact hOff
  · rw [if_neg ht] at hp
    simp only [Prod.mk.injEq] at hp
    rw [← hp.2.2]
    exact hOff

theorem offinv_drain (s : Reader) (k : Nat) (out : List Nat) (k' : Nat) (s' : Reader)
    (hOff : OffInv s) (h : drain s k = .ok (out, k', s')) : OffInv s' := by
  rcases drain_ok s k out k' s' h with ⟨_, _, _, hs⟩ |
    ⟨hk, out1, k1, s1, out2, k2, s2, out3, hp, hbulk, houts, hfinal⟩
  · rw [hs]; exact hOff
  · have h1 : OffInv s1 := offinv_after_temp_stage s k out1 k1 s1 hOff hp
    have h2 : OffInv s2 := by
      rcases hbulk with ⟨_, b, hdec, _, _, hs2⟩ | ⟨_, _, _, hs2⟩
      · rw [hs2]; exact offinv_buf_left_shift s1 _
      · rw [hs2]; exact h1
    rcases hfinal with ⟨hk2, _, hdb⟩ | ⟨_, _, hk', hs'⟩
    · exact offinv_drain_block s2 k2 out3 k' s' hdb
    · rw [hs']; exact h2

theorem offinv_drain_end (s : Reader) (k : Nat) (out : List Nat) (k' : Nat) (s' : Reader)
    (hOff : OffInv s) (h : drain_end s k = .ok (out, k', s')) : OffInv s' := by
  rcases drain_end_ok s k out k' s' h with ⟨_, _, _, hs⟩ |
    ⟨hk, out1, k1, s1, out3, hp, houts, hfinal⟩
  · rw [hs]; exact hOff
  · have h1 : OffInv s1 := offinv_after_temp_stage s k out1 k1 s1 hOff hp
    rcases hfinal with ⟨hk1, _, hdb⟩ | ⟨_, _, hk', hs'⟩
    · exact offinv_drain_block s1 k1 out3 k' s' hdb
    · rw [hs']; exact h1

theorem offinv_drain_dispatch {A : Type} (s : Reader) (k : Nat) (src : A) (hOff : OffInv s) :
    OffInv (match drain s k with
      | .error e => ((.error (.decode e) : Except ReadError (List Nat)), s, src)
      | .ok (out, _, s') => (.ok out, s', src)).2.1 := by
  cases hd : drain s k with
  | error e => exact hOff
  | ok r =>
    rcases r with ⟨out, k2, s'⟩
    exact offinv_drain s k out k2 s' hOff hd

theorem offinv_drain_end_dispatch {A : Type} (s : Reader) (k : Nat) (src : A) (hOff : OffInv s) :
    OffInv (match drain_end s k with
      | .error e => ((.error (.decode e) : Except ReadError (List Nat)), s, src)
      | .ok (out, _, s') => (.ok out, s', src)).2.1 := by
  cases hd : drain_end s k with
  | error e => exact hOff
  | ok r =>
    rcases r with ⟨out, k2, s'⟩
    exact offinv_drain_end s k out k2 s' hOff hd

theorem offinv_readScript (s : Reader) (src : List SrcEvent) (k : Nat) (hOff : OffInv s) :
    OffInv (readScript s src k).2.1 := by
  induction src generalizing s with
  | nil =>
    by_cases h4 : s.buf_length < 4
    · rw [readScript_nil s k h4]
      exact offinv_drain_end_dispatch s k _ hOff
    · rw [readScript_of_ge s [] k h4]
      exact offinv_drain_dispatch s k _ hOff
  | cons ev rest IH =>
    by_cases h4 : s.buf_length < 4
    · cases ev with
      | chunk data =>
        by_cases hc : min data.length (BUFFER_SIZE - (s.buf_offset + s.buf_length)) = 0
        · rw [readScript_chunk_exhaust s data rest k h4 hc]
          exact offinv_drain_end_dispatch s k _ hOff
        · rw [readScript_chunk_fill s data rest k h4 hc]
          exact IH _ hOff
      | fail kk =>
        cases kk with
        | interrupted =>
          rw [readScript_interrupted s rest k h4]
          exact IH _ hOff
        | other n =>
          rw [readScript_fail s n rest k h4]
          exact hOff
    · rw [readScript_of_ge s (ev :: rest) k h4]
      exact offinv_drain_dispatch s k _ hOff

theorem offinv_readCursor (s : Reader) (src : List Nat) (k : Nat) (hOff : OffInv s) :
    OffInv (readCursor s src k).2.1 := by
  have H : ∀ (n : Nat) (s : Reader) (src : List Nat), src.length ≤ n → OffInv s →
      OffInv (readCursor s src k).2.1 := by
    intro n
    induction n with
    | zero =>
      intro s src hlen hI
      by_cases h4 : s.buf_length < 4
      · have hc : min (BUFFER_SIZE - (s.buf_offset + s.buf_length)) src.length = 0 := by omega
        rw [readCursor_exhaust s src k h4 hc]
        exact offinv_drain_end_dispatch s k _ hI
      · rw [readCursor_of_ge s src k h4]
        exact offinv_drain_dispatch s k _ hI
    | succ n IH =>
      intro s src hlen hI
      by_cases h4 : s.buf_length < 4
      · by_cases hc : min (BUFFER_SIZE - (s.buf_offset + s.buf_length)) src.length = 0
        · rw [readCursor_exhaust s src k h4 hc]
          exact offinv_drain_end_dispatch s k _ hI
        · rw [readCursor_fill s src k h4 hc]
          exact IH _ _ (by simp only [List.length_drop]; omega) hI
      · rw [readCursor_of_ge s src k h4]
        exact offinv_drain_dispatch s k _ hI
  exact H src.length s src le_rfl hOff

/-- **C10.** After every `buf_left_shift` the offset satisfies
`buf_offset ≤ BUFFER_SIZE - 32` (unconditionally, and `BUFFER_SIZE = 4096 ≥ 36`);
the bound holds of a fresh decoder and is preserved by `read` under both
source models, so it holds at the top of every fill-loop iteration; and under
that bound, whenever `buf_length < 4`, the tail slice
`buf[(buf_offset + buf_length)..]` handed to the source is non-empty, so the
source's `Ok(0)` cannot be an artifact of a zero-length destination. -/
theorem fill_slice_nonempty :
    (∀ s d, (buf_left_shift s d).buf_offset ≤ BUFFER_SIZE - 32) ∧
    OffInv Reader.new ∧
    (∀ s src k, OffInv s → OffInv (readScript s src k).2.1) ∧
    (∀ s src k, OffInv s → OffInv (readCursor s src k).2.1) ∧
    (∀ s, OffInv s → s.buf_length < 4 → 0 < BUFFER_SIZE - (s.buf_offset + s.buf_length)) :=
  ⟨fun s d => offinv_buf_left_shift s d,
   by show (0:Nat) ≤ BUFFER_SIZE - 32; omega,
   fun s src k h => offinv_readScript s src k h,
   fun s src k h => offinv_readCursor s src k h,
   fun s h h4 => by
     have hB : (36 : Nat) ≤ BUFFER_SIZE := by rw [BUFFER_SIZE]; omega
     rw [OffInv] at h
     omega⟩

/-- Witness for `fill_slice_nonempty` at concrete inputs. -/
theorem fill_slice_nonempty_witness :
    OffInv (readScript Reader.new [.chunk [65, 66]] 7).2.1 ∧
    0 < BUFFER_SIZE - ((Reader.new).buf_offset + (Reader.new).buf_length) :=
  ⟨fill_slice_nonempty.2.2.1 Reader.new [.chunk [65, 66]] 7 fill_slice_nonempty.2.1,
   fill_slice_nonempty.2.2.2.2 Reader.new fill_slice_nonempty.2.1
     (by show (0:Nat) < 4; omega)⟩

end Base64Stream
namespace Base64Stream

/-- **C9.** During the fill loop (entered while `buf_length < 4`), a source
error of kind `Interrupted` is absorbed: the call simply continues with the
rest of the source script and an unchanged decoder state.  A source error of
any other kind is returned verbatim as the result of the call, with the
decoder's buffered state unmodified (the returned state is `s` itself). -/
theorem source_error_handling :
    (∀ (s : Reader) (rest : List SrcEvent) (k : Nat), s.buf_length < 4 →
      readScript s (.fail .interrupted :: rest) k = readScript s rest k) ∧
    (∀ (s : Reader) (n : Nat) (rest : List SrcEvent) (k : Nat), s.buf_length < 4 →
      readScript s (.fail (.other n) :: rest) k = (.error (.io (.other n)), s, rest)) :=
  ⟨fun s rest k h => readScript_interrupted s rest k h,
   fun s n rest k h => readScript_fail s n rest k h⟩

/-- Witness for `source_error_handling` at concrete inputs. -/
theorem source_error_handling_witness :
    readScript Reader.new [.fail .interrupted] 5 = readScript Reader.new [] 5 ∧
    readScript Reader.new [.fail (.other 11)] 5 =
      (.error (.io (.other 11)), Reader.new, []) :=
  ⟨source_error_handling.1 Reader.new [] 5 (by simp [Reader.new]),
   source_error_handling.2 Reader.new 11 [] 5 (by simp [Reader.new])⟩

/-- **C4.** A `read` call that hits an error returns only that error and no
byte count: if the decode stage fails (after a fill that ended with
`buf_length ≥ 4`, or at end of source), `read` returns exactly the wrapped
decode error — irrespective of `temp_length`, i.e. even when pending decoded
bytes had already been copied into the caller's buffer earlier in the same
call — and an error result is never an `ok` count. -/
theorem read_error_no_count :
    (∀ (s : Reader) (src : List SrcEvent) (k : Nat) (e : DecodeError),
      ¬ s.buf_length < 4 → drain s k = .error e →
      readScript s src k = (.error (.decode e), s, src)) ∧
    (∀ (s : Reader) (k : Nat) (e : DecodeError),
      s.buf_length < 4 → drain_end s k = .error e →
      readScript s [] k = (.error (.decode e), s, [])) ∧
    (∀ (r : Except ReadError (List Nat)) (e : ReadError) (out : List Nat),
      r = .error e → r ≠ .ok out) := by
  refine ⟨?_, ?_, ?_⟩
  · intro s src k e h4 hd
    rw [readScript_of_ge s src k h4, hd]
  · intro s k e h4 hd
    rw [readScript_nil s k h4, hd]
  · intro r e out he
    rw [he]
    simp

/-- Witness for `read_error_no_count`: a state with one pending overflow byte
(which the call drains into the caller's buffer first) and four non-base64
bytes `!` in the raw buffer; the call still returns only the decode error. -/
theorem read_error_no_count_witness :
    readScript { Reader.new with buf := fun _ => 33, buf_length := 4, temp_length := 1 } [] 7 =
      (.error (.decode .invalidChar),
        { Reader.new with buf := fun _ => 33, buf_length := 4, temp_length := 1 }, []) :=
  read_error_no_count.1 { Reader.new with buf := fun _ => 33, buf_length := 4, temp_length := 1 }
    [] 7 .invalidChar (by simp) rfl

end Base64Stream
namespace Base64Stream

theorem drain_temp_fst (s : Reader) (k : Nat) :
    (drain_temp s k).1 = readRange s.temp 0 (min k s.temp_length) := rfl

theorem temp_stage_fst (s : Reader) (k : Nat) (out1 : List Nat) (k1 : Nat) (s1 : Reader)
    (ht : 0 < s.temp_length) (hk : 1 ≤ k)
    (hp : (if 0 < s.temp_length then drain_temp s k else (([] : List Nat), k, s)) =
      (out1, k1, s1)) : out1 ≠ [] := by
  rw [if_pos ht] at hp
  have h1 := congrArg (fun p => (p : List Nat × Nat × Reader).1) hp
  dsimp only at h1
  rw [drain_temp_fst] at h1
  intro hemp
  rw [hemp] at h1
  have h2 := congrArg List.length h1
  rw [readRange_length] at h2
  simp at h2
  omega

theorem temp_stage_skip (s : Reader) (k : Nat) (out1 : List Nat) (k1 : Nat) (s1 : Reader)
    (ht : ¬ 0 < s.temp_length)
    (hp : (if 0 < s.temp_length then drain_temp s k else (([] : List Nat), k, s)) =
      (out1, k1, s1)) : out1 = [] ∧ k1 = k ∧ s1 = s := by
  rw [if_neg ht] at hp
  simp only [Prod.mk.injEq] at hp
  exact ⟨hp.1.symm, hp.2.1.symm, hp.2.2.symm⟩

theorem drain_block_out_ne_nil (s : Reader) (k : Nat) (out : List Nat) (k' : Nat) (s' : Reader)
    (hb : 0 < s.buf_length) (hk : 1 ≤ k)
    (h : drain_block s k = .ok (out, k', s')) : out ≠ [] := by
  obtain ⟨b, hdec, hcase⟩ := drain_block_ok s k out k' s' h
  have hbne : 0 < b.length := by
    apply b64decode_ok_pos _ _ hdec
    intro hnil
    have := congrArg List.length hnil
    rw [readRange_length] at this
    simp at this
    omega
  rcases hcase with ⟨hbk, hout, _, _⟩ | ⟨hbk, hout, _, _⟩
  · rw [hout]
    intro hnil
    rw [hnil] at hbne
    simp at hbne
  · rw [hout]
    intro hnil
    have := congrArg List.length hnil
    simp only [List.length_take, List.length_nil] at this
    omega

theorem drain_out_ne_nil (s : Reader) (k : Nat) (out : List Nat) (k' : Nat) (s' : Reader)
    (hk : 1 ≤ k) (h4 : 4 ≤ s.buf_length)
    (h : drain s k = .ok (out, k', s')) : out ≠ [] := by
  rcases drain_ok s k out k' s' h with ⟨hk0, _, _, _⟩ |
    ⟨hk0, out1, k1, s1, out2, k2, s2, out3, hp, hbulk, houts, hfinal⟩
  · omega
  · by_cases ht : 0 < s.temp_length
    · have h1 := temp_stage_fst s k out1 k1 s1 ht hk hp
      rw [houts]
      intro hnil
      rcases List.append_eq_nil.mp hnil with ⟨ha, _⟩
      rcases List.append_eq_nil.mp ha with ⟨hb, _⟩
      exact h1 hb
    · obtain ⟨ho1, hk1, hs1⟩ := temp_stage_skip s k out1 k1 s1 ht hp
      have hsl := congrArg Reader.buf_length hs1
      rcases hbulk with ⟨hk3, b, hdec, hout2, _, _⟩ | ⟨hk3, hout2, hk2, hs2⟩
      · have hbne : 0 < b.length := by
          apply b64decode_ok_pos _ _ hdec
          intro hnil
          have hlen := congrArg List.length hnil
          rw [readRange_length] at hlen
          simp only [List.length_nil] at hlen
          omega
        rw [houts, hout2]
        intro hnil
        rcases List.append_eq_nil.mp hnil with ⟨ha, _⟩
        rcases List.append_eq_nil.mp ha with ⟨_, hbnil⟩
        rw [hbnil] at hbne
        simp at hbne
      · have hsl2 := congrArg Reader.buf_length hs2
        rcases hfinal with ⟨hg1, hg2, hdb⟩ | ⟨hg, _, _, _⟩
        · have h3 := drain_block_out_ne_nil s2 k2 out3 k' s' (by omega) (by omega) hdb
          rw [houts]
          intro hnil
          rcases List.append_eq_nil.mp hnil with ⟨_, hb3⟩
          exact h3 hb3
        · exact absurd ⟨by omega, by omega⟩ hg

theorem drain_end_ok_empty (s : Reader) (k : Nat) (out : List Nat) (k' : Nat) (s' : Reader)
    (hk : 1 ≤ k) (h : drain_end s k = .ok (out, k', s')) (hout : out = []) :
    s' = s ∧ s.temp_length = 0 ∧ s.buf_length = 0 := by
  rcases drain_end_ok s k out k' s' h with ⟨hk0, _, _, _⟩ |
    ⟨hk0, out1, k1, s1, out3, hp, houts, hfinal⟩
  · omega
  · by_cases ht : 0 < s.temp_length
    · have h1 := temp_stage_fst s k out1 k1 s1 ht hk hp
      rw [hout] at houts
      exact absurd (List.append_eq_nil.mp houts.symm).1 h1
    · obtain ⟨ho1, hk1, hs1⟩ := temp_stage_skip s k out1 k1 s1 ht hp
      have hsl := congrArg Reader.buf_length hs1
      rcases hfinal with ⟨hg1, hg2, hdb⟩ | ⟨hg, ho3, hk2, hs'⟩
      · have h3 := drain_block_out_ne_nil s1 k1 out3 k' s' hg2 (by omega) hdb
        rw [hout] at houts
        exact absurd (List.append_eq_nil.mp houts.symm).2 h3
      · refine ⟨hs'.trans hs1, by omega, ?_⟩
        by_cases hbl : 0 < s1.buf_length
        · exact absurd ⟨by omega, hbl⟩ hg
        · omega

theorem drain_end_trivial (s : Reader) (k : Nat) (ht : s.temp_length = 0)
    (hb : s.buf_length = 0) : drain_end s k = .ok ([], k, s) := by
  rw [drain_end]
  by_cases hk : k = 0
  · rw [if_pos hk]
  · rw [if_neg hk]
    rw [ht]
    simp only [Nat.lt_irrefl, if_false, if_neg (by omega : ¬ (0:Nat) < 0)]
    rw [if_neg]
    intro hcon
    rw [hb] at hcon
    omega

end Base64Stream
namespace Base64Stream

theorem readScript_ok_empty_state (s : Reader) (src : List SrcEvent) (k : Nat)
    (out : List Nat) (s' : Reader) (rest : List SrcEvent) (hk : 1 ≤ k)
    (h : readScript s src k = (.ok out, s', rest)) (hout : out = []) :
    s'.temp_length = 0 ∧ s'.buf_length = 0 := by
  induction src generalizing s with
  | nil =>
    by_cases h4 : s.buf_length < 4
    · rw [readScript_nil s k h4] at h
      cases hde : drain_end s k with
      | error e => rw [hde] at h; simp at h
      | ok r =>
        rcases r with ⟨o, k2, s2⟩
        rw [hde] at h
        simp only [Prod.mk.injEq, Except.ok.injEq] at h
        obtain ⟨ho, hs2, _⟩ := h
        obtain ⟨hse, htl, hbl⟩ :=
          drain_end_ok_empty s k o k2 s2 hk hde (by rw [ho, hout])
        have e1 := congrArg Reader.temp_length (hs2.symm.trans hse)
        have e2 := congrArg Reader.buf_length (hs2.symm.trans hse)
        omega
    · rw [readScript_of_ge s [] k h4] at h
      cases hdr : drain s k with
      | error e => rw [hdr] at h; simp at h
      | ok r =>
        rcases r with ⟨o, k2, s2⟩
        rw [hdr] at h
        simp only [Prod.mk.injEq, Except.ok.injEq] at h
        obtain ⟨ho, hs2, _⟩ := h
        have := drain_out_ne_nil s k o k2 s2 hk (by omega) hdr
        rw [ho, hout] at this
        simp at this
  | cons ev rest2 IH =>
    by_cases h4 : s.buf_length < 4
    · cases ev with
      | chunk data =>
        by_cases hc : min data.length (BUFFER_SIZE - (s.buf_offset + s.buf_length)) = 0
        · rw [readScript_chunk_exhaust s data rest2 k h4 hc] at h
          cases hde : drain_end s k with
          | error e => rw [hde] at h; simp at h
          | ok r =>
            rcases r with ⟨o, k2, s2⟩
            rw [hde] at h
            simp only [Prod.mk.injEq, Except.ok.injEq] at h
            obtain ⟨ho, hs2, _⟩ := h
            obtain ⟨hse, htl, hbl⟩ :=
              drain_end_ok_empty s k o k2 s2 hk hde (by rw [ho, hout])
            have e1 := congrArg Reader.temp_length (hs2.symm.trans hse)
            have e2 := congrArg Reader.buf_length (hs2.symm.trans hse)
            omega
        · rw [readScript_chunk_fill s data rest2 k h4 hc] at h
          exact IH _ h
      | fail kk =>
        cases kk with
        | interrupted =>
          rw [readScript_interrupted s rest2 k h4] at h
          exact IH _ h
        | other n =>
          rw [readScript_fail s n rest2 k h4] at h
          simp at h
    · rw [readScript_of_ge s (ev :: rest2) k h4] at h
      cases hdr : drain s k with
      | error e => rw [hdr] at h; simp at h
      | ok r =>
        rcases r with ⟨o, k2, s2⟩
        rw [hdr] at h
        simp only [Prod.mk.injEq, Except.ok.injEq] at h
        obtain ⟨ho, hs2, _⟩ := h
        have := drain_out_ne_nil s k o k2 s2 hk (by omega) hdr
        rw [ho, hout] at this
        simp at this

/-- **C5.** If a `read` call with a non-empty caller buffer returns a zero
byte count (and no error), the decoder has fully drained: the state it leaves
behind has no pending overflow bytes and no buffered raw bytes, and every
subsequent read against a source that keeps reporting zero bytes (the empty
script) returns zero bytes and no error, with the state unchanged — so all
later reads do the same. -/
theorem exhaustion_idempotent (s : Reader) (src : List SrcEvent) (k : Nat) (out : List Nat)
    (s' : Reader) (rest : List SrcEvent) (hk : 1 ≤ k)
    (h : readScript s src k = (.ok out, s', rest)) (hout : out = []) :
    ∀ k', readScript s' [] k' = (.ok [], s', []) := by
  obtain ⟨ht, hb⟩ := readScript_ok_empty_state s src k out s' rest hk h hout
  intro k'
  rw [readScript_nil s' k' (by omega : s'.buf_length < 4)]
  rw [drain_end_trivial s' k' ht hb]

/-- Witness for `exhaustion_idempotent`: a fresh decoder over an exhausted
source returns zero bytes, and so does the following read. -/
theorem exhaustion_idempotent_witness :
    readScript Reader.new [] 2 = (.ok [], Reader.new, []) :=
  exhaustion_idempotent Reader.new [] 1 [] Reader.new [] (by omega) rfl rfl 2

end Base64Stream
namespace Base64Stream

/-- **C8.** In `drain` with no pending overflow and at least 3 bytes of caller
capacity, the bulk stage consumes exactly
`min(buf_length & !0b11, (k / 3) * 4)` raw bytes: that many bytes (a multiple
of 4, at most `buf_length`) are removed from the front of the raw region, the
bulk-decoded bytes come first in the call's output, and their number never
exceeds the caller's remaining capacity `k`. -/
theorem bulk_decode_spec (s : Reader) (k : Nat) (b : List Nat)
    (ht : s.temp_length = 0) (hk3 : 3 ≤ k)
    (hdec : b64decode (readRange s.buf s.buf_offset
      (min (s.buf_length - s.buf_length % 4) (k / 3 * 4))) = .ok b) :
    b.length ≤ k ∧
    min (s.buf_length - s.buf_length % 4) (k / 3 * 4) ≤ s.buf_length ∧
    min (s.buf_length - s.buf_length % 4) (k / 3 * 4) % 4 = 0 ∧
    (buf_left_shift s (min (s.buf_length - s.buf_length % 4) (k / 3 * 4))).buf_length =
      s.buf_length - min (s.buf_length - s.buf_length % 4) (k / 3 * 4) ∧
    rawBytes (buf_left_shift s (min (s.buf_length - s.buf_length % 4) (k / 3 * 4))) =
      (rawBytes s).drop (min (s.buf_length - s.buf_length % 4) (k / 3 * 4)) ∧
    (∀ out k' s', drain s k = .ok (out, k', s') → ∃ t, out = b ++ t) := by
  have hlen := b64decode_length_le _ _ hdec
  rw [readRange_length] at hlen
  refine ⟨by omega, by omega, by omega,
    buf_length_buf_left_shift s _, rawBytes_buf_left_shift s _, ?_⟩
  intro out k' s' h
  rcases drain_ok s k out k' s' h with ⟨hk0, _, _, _⟩ |
    ⟨hk0, out1, k1, s1, out2, k2, s2, out3, hp, hbulk, houts, hfinal⟩
  · omega
  · obtain ⟨ho1, hk1, hs1⟩ := temp_stage_skip s k out1 k1 s1 (by omega) hp
    rcases hbulk with ⟨hk13, b2, hdec2, hout2, _, _⟩ | ⟨hk13, _, _, _⟩
    · rw [hs1, hk1] at hdec2
      rw [hdec2] at hdec
      injection hdec with hbb
      refine ⟨out3, ?_⟩
      rw [houts, ho1, hout2, hbb]
      simp
    · omega

/-- Witness for `bulk_decode_spec` at a concrete state: 5 raw bytes `A`,
caller capacity 3, aligned span 4. -/
theorem bulk_decode_spec_witness :
    ([0, 0, 0] : List Nat).length ≤ 3 ∧
    (buf_left_shift { Reader.new with buf := fun _ => 65, buf_length := 5 }
        (min ((5:Nat) - 5 % 4) (3 / 3 * 4))).buf_length =
      ({ Reader.new with buf := fun _ => 65, buf_length := 5 } : Reader).buf_length -
        min (({ Reader.new with buf := fun _ => 65, buf_length := 5 } : Reader).buf_length -
          ({ Reader.new with buf := fun _ => 65, buf_length := 5 } : Reader).buf_length % 4)
          (3 / 3 * 4) := by
  have h := bulk_decode_spec { Reader.new with buf := fun _ => 65, buf_length := 5 } 3
    [0, 0, 0] rfl (by omega) rfl
  exact ⟨h.1, h.2.2.2.1⟩

end Base64Stream
namespace Base64Stream

theorem drain_block_overflow (s : Reader) (k : Nat) (b : List Nat) (hk : 0 < k)
    (hdec : b64decode (readRange s.buf s.buf_offset (min s.buf_length 4)) = .ok b)
    (hkb : k < b.length) :
    ∃ s', drain_block s k = .ok (b.take k, 0, s') ∧
      s'.temp_length = b.length - k ∧ tempBytes s' = b.drop k := by
  rw [drain_block, hdec]
  dsimp only
  rw [if_neg (by omega : ¬ b.length ≤ k)]
  refine ⟨_, rfl, rfl, ?_⟩
  show readRange (writeBytes (buf_left_shift s (min s.buf_length 4)).temp 0 (b.drop k)) 0
    (b.length - k) = b.drop k
  have h1 := readRange_writeBytes_eq (buf_left_shift s (min s.buf_length 4)).temp 0 (b.drop k)
  rw [List.length_drop] at h1
  exact h1

theorem temp_prefix_next_read (s : Reader) (src : List SrcEvent) (k : Nat)
    (out : List Nat) (s' : Reader) (rest : List SrcEvent)
    (ht : 0 < s.temp_length) (ht2 : s.temp_length ≤ 2) (hk : 1 ≤ k)
    (h : readScript s src k = (.ok out, s', rest)) :
    ∃ t, out = (tempBytes s).take (min k s.temp_length) ++ t := by
  induction src generalizing s with
  | nil =>
    by_cases h4 : s.buf_length < 4
    · rw [readScript_nil s k h4] at h
      cases hde : drain_end s k with
      | error e => rw [hde] at h; simp at h
      | ok r =>
        rcases r with ⟨o, k2, s2⟩
        rw [hde] at h
        simp only [Prod.mk.injEq, Except.ok.injEq] at h
        obtain ⟨ho, _, _⟩ := h
        rcases drain_end_ok s k o k2 s2 hde with ⟨hk0, _, _, _⟩ |
          ⟨hk0, out1, k1, s1, out3, hp, houts, _⟩
        · omega
        · rw [if_pos ht] at hp
          have h1 := congrArg (fun p => (p : List Nat × Nat × Reader).1) hp
          dsimp only at h1
          rw [drain_temp_fst] at h1
          refine ⟨out3, ?_⟩
          rw [← ho, houts, ← h1]
          rw [tempBytes, readRange_take]
          congr 2
          omega
    · rw [readScript_of_ge s [] k h4] at h
      cases hdr : drain s k with
      | error e => rw [hdr] at h; simp at h
      | ok r =>
        rcases r with ⟨o, k2, s2⟩
        rw [hdr] at h
        simp only [Prod.mk.injEq, Except.ok.injEq] at h
        obtain ⟨ho, _, _⟩ := h
        rcases drain_ok s k o k2 s2 hdr with ⟨hk0, _, _, _⟩ |
          ⟨hk0, out1, k1, s1, out2, k2x, s2x, out3, hp, _, houts, _⟩
        · omega
        · rw [if_pos ht] at hp
          have h1 := congrArg (fun p => (p : List Nat × Nat × Reader).1) hp
          dsimp only at h1
          rw [drain_temp_fst] at h1
          refine ⟨out2 ++ out3, ?_⟩
          rw [← ho, houts, ← h1]
          rw [tempBytes, readRange_take]
          rw [List.append_assoc]
          congr 2
          omega
  | cons ev rest2 IH =>
    by_cases h4 : s.buf_length < 4
    · cases ev with
      | chunk data =>
        by_cases hc : min data.length (BUFFER_SIZE - (s.buf_offset + s.buf_length)) = 0
        · rw [readScript_chunk_exhaust s data rest2 k h4 hc] at h
          cases hde : drain_end s k with
          | error e => rw [hde] at h; simp at h
          | ok r =>
            rcases r with ⟨o, k2, s2⟩
            rw [hde] at h
            simp only [Prod.mk.injEq, Except.ok.injEq] at h
            obtain ⟨ho, _, _⟩ := h
            rcases drain_end_ok s k o k2 s2 hde with ⟨hk0, _, _, _⟩ |
              ⟨hk0, out1, k1, s1, out3, hp, houts, _⟩
            · omega
            · rw [if_pos ht] at hp
              have h1 := congrArg (fun p => (p : List Nat × Nat × Reader).1) hp
              dsimp only at h1
              rw [drain_temp_fst] at h1
              refine ⟨out3, ?_⟩
              rw [← ho, houts, ← h1]
              rw [tempBytes, readRange_take]
              congr 2
              omega
        · rw [readScript_chunk_fill s data rest2 k h4 hc] at h
          obtain ⟨t, hout⟩ := IH _ (by exact ht) (by exact ht2) h
          exact ⟨t, hout⟩
      | fail kk =>
        cases kk with
        | interrupted =>
          rw [readScript_interrupted s rest2 k h4] at h
          exact IH _ ht ht2 h
        | other n =>
          rw [readScript_fail s n rest2 k h4] at h
          simp at h
    · rw [readScript_of_ge s (ev :: rest2) k h4] at h
      cases hdr : drain s k with
      | error e => rw [hdr] at h; simp at h
      | ok r =>
        rcases r with ⟨o, k2, s2⟩
        rw [hdr] at h
        simp only [Prod.mk.injEq, Except.ok.injEq] at h
        obtain ⟨ho, _, _⟩ := h
        rcases drain_ok s k o k2 s2 hdr with ⟨hk0, _, _, _⟩ |
          ⟨hk0, out1, k1, s1, out2, k2x, s2x, out3, hp, _, houts, _⟩
        · omega
        · rw [if_pos ht] at hp
          have h1 := congrArg (fun p => (p : List Nat × Nat × Reader).1) hp
          dsimp only at h1
          rw [drain_temp_fst] at h1
          refine ⟨out2 ++ out3, ?_⟩
          rw [← ho, houts, ← h1]
          rw [tempBytes, readRange_take]
          rw [List.append_assoc]
          congr 2
          omega

end Base64Stream
namespace Base64Stream

/-- **C3.** Overflow handling. (1) `drain_temp`, under its preconditions
(non-empty caller buffer, `temp_length ≤ 2` as maintained by C6), copies
exactly `min(k, temp_length)` bytes — the first pending overflow bytes, in
order — into the caller's buffer, moves the remaining overflow bytes to the
front of `temp`, and decrements `temp_length` by the number copied, leaving
capacity `k - min(k, temp_length)`. (2) When a decoded group `b` does not fit
into the caller's non-empty remaining buffer (`k < b.length`), `drain_block`
delivers `b.take k` and stores the undelivered `b.length - k ≤ 2` bytes in
the overflow buffer in their original order. (3) On the next `read` call that
returns a count, those pending bytes come first: the output starts with
`tempBytes.take (min k temp_length)`. -/
theorem overflow_contract :
    (∀ (s : Reader) (k : Nat), 1 ≤ k → s.temp_length ≤ 2 →
      (drain_temp s k).1 = (tempBytes s).take (min k s.temp_length) ∧
      (drain_temp s k).1.length = min k s.temp_length ∧
      (drain_temp s k).2.1 = k - min k s.temp_length ∧
      (drain_temp s k).2.2.temp_length = s.temp_length - min k s.temp_length ∧
      tempBytes (drain_temp s k).2.2 = (tempBytes s).drop (min k s.temp_length)) ∧
    (∀ (s : Reader) (k : Nat) (b : List Nat), 0 < k →
      b64decode (readRange s.buf s.buf_offset (min s.buf_length 4)) = .ok b →
      k < b.length →
      ∃ s', drain_block s k = .ok (b.take k, 0, s') ∧
        s'.temp_length = b.length - k ∧ tempBytes s' = b.drop k) ∧
    (∀ (s : Reader) (src : List SrcEvent) (k : Nat) (out : List Nat) (s' : Reader)
      (rest : List SrcEvent), 0 < s.temp_length → s.temp_length ≤ 2 → 1 ≤ k →
      readScript s src k = (.ok out, s', rest) →
      ∃ t, out = (tempBytes s).take (min k s.temp_length) ++ t) := by
  refine ⟨?_, ?_, ?_⟩
  · intro s k hk ht
    obtain ⟨h1, h2, h3, h4, _, _, _, _⟩ := drain_temp_spec s k (by omega) ht
    refine ⟨h1, ?_, h2, h3, h4⟩
    rw [drain_temp_fst, readRange_length]
  · intro s k b hk hdec hkb
    exact drain_block_overflow s k b hk hdec hkb
  · intro s src k out s' rest ht ht2 hk h
    exact temp_prefix_next_read s src k out s' rest ht ht2 hk h

/-- Witness for `overflow_contract` at concrete inputs: a decoded 3-byte
group against a 1-byte caller buffer, and a pending overflow byte delivered
first by the next read. -/
theorem overflow_contract_witness :
    ((drain_temp { Reader.new with temp := fun i => 7 + i, temp_length := 2 } 1).2.1 =
      1 - min 1 ({ Reader.new with temp := fun i => 7 + i, temp_length := 2 } : Reader).temp_length) ∧
    (∃ s', drain_block { Reader.new with buf := fun _ => 65, buf_length := 4 } 1 =
        .ok (([0, 0, 0] : List Nat).take 1, 0, s') ∧
      s'.temp_length = ([0, 0, 0] : List Nat).length - 1 ∧
      tempBytes s' = ([0, 0, 0] : List Nat).drop 1) ∧
    (∃ t, ([9] : List Nat) =
      (tempBytes { Reader.new with temp := fun _ => 9, temp_length := 1 }).take
        (min 2 ({ Reader.new with temp := fun _ => 9, temp_length := 1 } : Reader).temp_length)
        ++ t) :=
  ⟨(overflow_contract.1 { Reader.new with temp := fun i => 7 + i, temp_length := 2 } 1
      (by decide) (by decide)).2.2.1,
   overflow_contract.2.1 { Reader.new with buf := fun _ => 65, buf_length := 4 } 1 [0, 0, 0]
      (by decide) rfl (by decide),
   overflow_contract.2.2 { Reader.new with temp := fun _ => 9, temp_length := 1 } [] 2 [9]
      (readScript { Reader.new with temp := fun _ => 9, temp_length := 1 } [] 2).2.1
      (readScript { Reader.new with temp := fun _ => 9, temp_length := 1 } [] 2).2.2
      (by decide) (by decide) (by decide) rfl⟩

end Base64Stream
namespace Base64Stream

theorem b64Val_b64Char : ∀ v : Nat, v < 64 → b64Val (b64Char v) = some v := by
  decide

theorem b64Char_ne_pad : ∀ v : Nat, v < 64 → b64Char v ≠ padChar := by
  decide

theorem b64encode_nil_iff (l : List Nat) : b64encode l = [] ↔ l = [] := by
  constructor
  · intro h
    match l with
    | [] => rfl
    | [b0] => simp [b64encode] at h
    | [b0, b1] => simp [b64encode] at h
    | b0 :: b1 :: b2 :: rest => simp [b64encode] at h
  · intro h
    rw [h]
    rfl

theorem b64encode_length_cons (b0 b1 b2 : Nat) (rest : List Nat) :
    (b64encode (b0 :: b1 :: b2 :: rest)).length = 4 + (b64encode rest).length := by
  rw [b64encode]
  simp only [List.length_cons]
  omega

theorem b64encode_length_ge (l : List Nat) (h : l ≠ []) : 4 ≤ (b64encode l).length := by
  match l with
  | [] => exact absurd rfl h
  | [b0] => simp [b64encode]
  | [b0, b1] => simp [b64encode]
  | b0 :: b1 :: b2 :: rest => rw [b64encode_length_cons]; omega

theorem quad_recover (b0 b1 b2 : Nat) (h0 : b0 < 256) (h1 : b1 < 256) (h2 : b2 < 256) :
    decodeQuad (b0 / 4) (b0 % 4 * 16 + b1 / 16) (b1 % 16 * 4 + b2 / 64) (b2 % 64) =
      [b0, b1, b2] := by
  rw [decodeQuad]
  refine congrArg₂ _ ?_ (congrArg₂ _ ?_ (congrArg₂ _ ?_ rfl)) <;> omega

theorem duo_recover (b0 b1 : Nat) (h0 : b0 < 256) (h1 : b1 < 256) :
    [b0 / 4 * 4 + (b0 % 4 * 16 + b1 / 16) / 16,
     (b0 % 4 * 16 + b1 / 16) % 16 * 16 + b1 % 16 * 4 / 4] = [b0, b1] := by
  refine congrArg₂ _ ?_ (congrArg₂ _ ?_ rfl) <;> omega

theorem uno_recover (b0 : Nat) (h0 : b0 < 256) :
    [b0 / 4 * 4 + b0 % 4 * 16 / 16] = [b0] := by
  refine congrArg₂ _ ?_ rfl
  omega

end Base64Stream
namespace Base64Stream

theorem take_four_cons (a b c d : Nat) (l : List Nat) (n : Nat) :
    (a :: b :: c :: d :: l).take (4 + n) = a :: b :: c :: d :: l.take n := by
  rw [show 4 + n = n + 1 + 1 + 1 + 1 from by ring]
  rw [List.take_succ_cons, List.take_succ_cons, List.take_succ_cons, List.take_succ_cons]

theorem drop_four_cons (a b c d : Nat) (l : List Nat) (n : Nat) :
    (a :: b :: c :: d :: l).drop (4 + n) = l.drop n := by
  rw [show 4 + n = n + 1 + 1 + 1 + 1 from by ring]
  rw [List.drop_succ_cons, List.drop_succ_cons, List.drop_succ_cons, List.drop_succ_cons]

theorem take_three_cons (a b c : Nat) (l : List Nat) (n : Nat) :
    (a :: b :: c :: l).take (3 + n) = a :: b :: c :: l.take n := by
  rw [show 3 + n = n + 1 + 1 + 1 from by ring]
  rw [List.take_succ_cons, List.take_succ_cons, List.take_succ_cons]

theorem drop_three_cons (a b c : Nat) (l : List Nat) (n : Nat) :
    (a :: b :: c :: l).drop (3 + n) = l.drop n := by
  rw [show 3 + n = n + 1 + 1 + 1 from by ring]
  rw [List.drop_succ_cons, List.drop_succ_cons, List.drop_succ_cons]

theorem decode_group_cons (v0 v1 v2 v3 : Nat) (h0 : v0 < 64) (h1 : v1 < 64) (h2 : v2 < 64)
    (h3 : v3 < 64) (T : List Nat) (out : List Nat) (hT : b64decode T = .ok out) :
    b64decode (b64Char v0 :: b64Char v1 :: b64Char v2 :: b64Char v3 :: T) =
      .ok (decodeQuad v0 v1 v2 v3 ++ out) := by
  by_cases hTe : T = []
  · subst hTe
    have hout : out = [] := by
      rw [show b64decode [] = .ok [] from rfl] at hT
      injection hT with hT
      exact hT.symm
    subst hout
    rw [show b64decode [b64Char v0, b64Char v1, b64Char v2, b64Char v3] =
      decodeTail [b64Char v0, b64Char v1, b64Char v2, b64Char v3] from rfl]
    rw [decodeTail]
    rw [b64Val_b64Char v0 h0, b64Val_b64Char v1 h1]
    dsimp only
    rw [if_neg (b64Char_ne_pad v2 h2)]
    rw [b64Val_b64Char v2 h2]
    dsimp only
    rw [if_neg (b64Char_ne_pad v3 h3)]
    rw [b64Val_b64Char v3 h3]
    dsimp only
    rw [List.append_nil]
  · rw [b64decode, if_neg hTe]
    rw [b64Val_b64Char v0 h0, b64Val_b64Char v1 h1, b64Val_b64Char v2 h2,
      b64Val_b64Char v3 h3]
    dsimp only
    rw [hT]

theorem encode_take_drop : ∀ (j : Nat) (rest : List Nat), (∀ b ∈ rest, b < 256) →
    4 * j ≤ (b64encode rest).length →
    b64decode ((b64encode rest).take (4 * j)) = .ok (rest.take (3 * j)) ∧
    (b64encode rest).drop (4 * j) = b64encode (rest.drop (3 * j)) := by
  intro j
  induction j with
  | zero =>
    intro rest h hj
    simp only [Nat.mul_zero, List.take_zero, List.drop_zero]
    exact ⟨rfl, trivial⟩
  | succ j IH =>
    intro rest h hj
    match rest with
    | [] =>
      exfalso
      rw [show b64encode [] = [] from rfl] at hj
      simp at hj
    | [b0] =>
      have hb0 : b0 < 256 := h b0 (by simp)
      have hj0 : j = 0 := by
        rw [b64encode] at hj
        simp only [List.length_cons, List.length_nil] at hj
        omega
      subst hj0
      rw [b64encode]
      constructor
      · rw [show 4 * (0 + 1) = 4 + 0 from by ring, take_four_cons]
        rw [show 3 * (0 + 1) = 3 from by ring]
        rw [List.take_zero]
        rw [show b64decode [b64Char (b0 / 4), b64Char (b0 % 4 * 16), padChar, padChar] =
          decodeTail [b64Char (b0 / 4), b64Char (b0 % 4 * 16), padChar, padChar] from rfl]
        rw [decodeTail]
        rw [b64Val_b64Char (b0 / 4) (by omega), b64Val_b64Char (b0 % 4 * 16) (by omega)]
        dsimp only
        rw [if_pos rfl, if_pos rfl]
        rw [show List.take 3 [b0] = [b0] from rfl]
        exact congrArg Except.ok (uno_recover b0 hb0)
      · rw [show 4 * (0 + 1) = 4 + 0 from by ring, drop_four_cons]
        rw [show 3 * (0 + 1) = 3 from by ring]
        rfl
    | [b0, b1] =>
      have hb0 : b0 < 256 := h b0 (by simp)
      have hb1 : b1 < 256 := h b1 (by simp)
      have hj0 : j = 0 := by
        rw [b64encode] at hj
        simp only [List.length_cons, List.length_nil] at hj
        omega
      subst hj0
      rw [b64encode]
      constructor
      · rw [show 4 * (0 + 1) = 4 + 0 from by ring, take_four_cons]
        rw [show 3 * (0 + 1) = 3 from by ring]
        rw [List.take_zero]
        rw [show b64decode [b64Char (b0 / 4), b64Char (b0 % 4 * 16 + b1 / 16),
            b64Char (b1 % 16 * 4), padChar] =
          decodeTail [b64Char (b0 / 4), b64Char (b0 % 4 * 16 + b1 / 16),
            b64Char (b1 % 16 * 4), padChar] from rfl]
        rw [decodeTail]
        rw [b64Val_b64Char (b0 / 4) (by omega),
          b64Val_b64Char (b0 % 4 * 16 + b1 / 16) (by omega)]
        dsimp only
        rw [if_neg (b64Char_ne_pad (b1 % 16 * 4) (by omega))]
        rw [b64Val_b64Char (b1 % 16 * 4) (by omega)]
        dsimp only
        rw [if_pos rfl]
        rw [show List.take 3 [b0, b1] = [b0, b1] from rfl]
        exact congrArg Except.ok (duo_recover b0 b1 hb0 hb1)
      · rw [show 4 * (0 + 1) = 4 + 0 from by ring, drop_four_cons]
        rw [show 3 * (0 + 1) = 3 from by ring]
        rfl
    | b0 :: b1 :: b2 :: rest' =>
      have hb0 : b0 < 256 := h b0 (by simp)
      have hb1 : b1 < 256 := h b1 (by simp)
      have hb2 : b2 < 256 := h b2 (by simp)
      have hr' : ∀ b ∈ rest', b < 256 := fun b hb => h b (by simp [hb])
      have hj' : 4 * j ≤ (b64encode rest').length := by
        rw [b64encode_length_cons] at hj
        omega
      obtain ⟨IH1, IH2⟩ := IH rest' hr' hj'
      rw [b64encode]
      constructor
      · rw [show 4 * (j + 1) = 4 + 4 * j from by ring, take_four_cons]
        rw [show 3 * (j + 1) = 3 + 3 * j from by ring, take_three_cons]
        rw [decode_group_cons (b0 / 4) (b0 % 4 * 16 + b1 / 16) (b1 % 16 * 4 + b2 / 64)
          (b2 % 64) (by omega) (by omega) (by omega) (by omega) _ _ IH1]
        rw [quad_recover b0 b1 b2 hb0 hb1 hb2]
        rfl
      · rw [show 4 * (j + 1) = 4 + 4 * j from by ring, drop_four_cons]
        rw [show 3 * (j + 1) = 3 + 3 * j from by ring, drop_three_cons]
        exact IH2

end Base64Stream
namespace Base64Stream

theorem readRange_eq_take (f : Nat → Nat) (off dl len : Nat) (h : dl ≤ len) :
    readRange f off dl = (readRange f off len).take dl := by
  rw [readRange_take, min_eq_left h]

theorem drain_eq_no_bulk (s : Reader) (k : Nat) (out1 : List Nat) (k1 : Nat) (s1 : Reader)
    (hk : k ≠ 0)
    (hp : (if 0 < s.temp_length then drain_temp s k else (([] : List Nat), k, s)) =
      (out1, k1, s1))
    (hk3 : k1 < 3) (hstop : ¬(0 < k1 ∧ 4 ≤ s1.buf_length)) :
    drain s k = .ok (out1, k1, s1) := by
  rw [drain, if_neg hk, hp]
  dsimp only
  rw [if_neg (by omega : ¬ 3 ≤ k1)]
  dsimp only
  rw [if_neg hstop, List.append_nil]

theorem drain_eq_no_bulk_block (s : Reader) (k : Nat) (out1 : List Nat) (k1 : Nat)
    (s1 : Reader) (out3 : List Nat) (k3 : Nat) (s3 : Reader) (hk : k ≠ 0)
    (hp : (if 0 < s.temp_length then drain_temp s k else (([] : List Nat), k, s)) =
      (out1, k1, s1))
    (hk3 : k1 < 3) (hgo : 0 < k1 ∧ 4 ≤ s1.buf_length)
    (hdb : drain_block s1 k1 = .ok (out3, k3, s3)) :
    drain s k = .ok (out1 ++ out3, k3, s3) := by
  rw [drain, if_neg hk, hp]
  dsimp only
  rw [if_neg (by omega : ¬ 3 ≤ k1)]
  dsimp only
  rw [if_pos hgo, hdb, List.append_nil]

theorem drain_eq_bulk (s : Reader) (k : Nat) (out1 : List Nat) (k1 : Nat) (s1 : Reader)
    (b : List Nat) (hk : k ≠ 0)
    (hp : (if 0 < s.temp_length then drain_temp s k else (([] : List Nat), k, s)) =
      (out1, k1, s1))
    (hk3 : 3 ≤ k1)
    (hdec : b64decode (readRange s1.buf s1.buf_offset
      (min (s1.buf_length - s1.buf_length % 4) (k1 / 3 * 4))) = .ok b)
    (hstop : ¬(0 < k1 - b.length ∧
      4 ≤ (buf_left_shift s1 (min (s1.buf_length - s1.buf_length % 4) (k1 / 3 * 4))).buf_length)) :
    drain s k = .ok (out1 ++ b, k1 - b.length,
      buf_left_shift s1 (min (s1.buf_length - s1.buf_length % 4) (k1 / 3 * 4))) := by
  rw [drain, if_neg hk, hp]
  dsimp only
  rw [if_pos hk3, hdec]
  dsimp only
  rw [if_neg hstop]

theorem drain_eq_bulk_block (s : Reader) (k : Nat) (out1 : List Nat) (k1 : Nat) (s1 : Reader)
    (b : List Nat) (out3 : List Nat) (k3 : Nat) (s3 : Reader) (hk : k ≠ 0)
    (hp : (if 0 < s.temp_length then drain_temp s k else (([] : List Nat), k, s)) =
      (out1, k1, s1))
    (hk3 : 3 ≤ k1)
    (hdec : b64decode (readRange s1.buf s1.buf_offset
      (min (s1.buf_length - s1.buf_length % 4) (k1 / 3 * 4))) = .ok b)
    (hgo : 0 < k1 - b.length ∧
      4 ≤ (buf_left_shift s1 (min (s1.buf_length - s1.buf_length % 4) (k1 / 3 * 4))).buf_length)
    (hdb : drain_block
      (buf_left_shift s1 (min (s1.buf_length - s1.buf_length % 4) (k1 / 3 * 4)))
      (k1 - b.length) = .ok (out3, k3, s3)) :
    drain s k = .ok (out1 ++ b ++ out3, k3, s3) := by
  rw [drain, if_neg hk, hp]
  dsimp only
  rw [if_pos hk3, hdec]
  dsimp only
  rw [if_pos hgo, hdb]

theorem drain_end_eq_no_block (s : Reader) (k : Nat) (out1 : List Nat) (k1 : Nat) (s1 : Reader)
    (hk : k ≠ 0)
    (hp : (if 0 < s.temp_length then drain_temp s k else (([] : List Nat), k, s)) =
      (out1, k1, s1))
    (hstop : ¬(0 < k1 ∧ 0 < s1.buf_length)) :
    drain_end s k = .ok (out1, k1, s1) := by
  rw [drain_end, if_neg hk, hp]
  dsimp only
  rw [if_neg hstop]

theorem drain_end_eq_block (s : Reader) (k : Nat) (out1 : List Nat) (k1 : Nat) (s1 : Reader)
    (out3 : List Nat) (k3 : Nat) (s3 : Reader) (hk : k ≠ 0)
    (hp : (if 0 < s.temp_length then drain_temp s k else (([] : List Nat), k, s)) =
      (out1, k1, s1))
    (hgo : 0 < k1 ∧ 0 < s1.buf_length)
    (hdb : drain_block s1 k1 = .ok (out3, k3, s3)) :
    drain_end s k = .ok (out1 ++ out3, k3, s3) := by
  rw [drain_end, if_neg hk, hp]
  dsimp only
  rw [if_pos hgo, hdb]

end Base64Stream
namespace Base64Stream

/-- The streaming invariant tying the decoder state and remaining cursor
source to the original plaintext `B`: the undecoded part of the stream
(raw buffer contents followed by the unread source) is exactly the encoding
of the not-yet-decoded suffix of `B`, and the C6/C10 state invariants hold. -/
def StreamInv (B : List Nat) (m : Nat) (s : Reader) (src : List Nat) : Prop :=
  Inv s ∧ OffInv s ∧ rawBytes s ++ src = b64encode (B.drop (3 * m))

theorem length_rawBytes (s : Reader) : (rawBytes s).length = s.buf_length := by
  rw [rawBytes, readRange_length]

theorem tempBytes_empty (s : Reader) (h : s.temp_length = 0) : tempBytes s = [] := by
  rw [tempBytes, h]
  rfl

theorem drain_block_step (B : List Nat) (m : Nat) (s : Reader) (src : List Nat) (k : Nat)
    (hB : ∀ b ∈ B, b < 256)
    (hSI : StreamInv B m s src) (hk : 1 ≤ k) (h4 : 4 ≤ s.buf_length)
    (htemp : s.temp_length = 0) :
    ∃ out k' s', drain_block s k = .ok (out, k', s') ∧
      StreamInv B (m + 1) s' src ∧
      out ++ tempBytes s' ++ B.drop (3 * (m + 1)) = B.drop (3 * m) ∧
      out ≠ [] ∧
      s'.buf_length + s'.temp_length < s.buf_length + s.temp_length := by
  obtain ⟨hInv, hOff, hE⟩ := hSI
  have hlenraw : (rawBytes s).length = s.buf_length := length_rawBytes s
  have hlenE : 4 ≤ (b64encode (B.drop (3 * m))).length := by
    have := congrArg List.length hE
    rw [List.length_append, hlenraw] at this
    omega
  have hrb : ∀ b ∈ B.drop (3 * m), b < 256 := fun b hb => hB b (List.mem_of_mem_drop hb)
  obtain ⟨KL1, KL2⟩ := encode_take_drop 1 (B.drop (3 * m)) hrb (by omega)
  have hrestne : B.drop (3 * m) ≠ [] := by
    intro hnil
    rw [hnil] at hlenE
    rw [show b64encode [] = [] from rfl] at hlenE
    simp at hlenE
  have hmin : min s.buf_length 4 = 4 := min_eq_right h4
  have hdec : b64decode (readRange s.buf s.buf_offset (min s.buf_length 4)) =
      .ok ((B.drop (3 * m)).take 3) := by
    rw [hmin, readRange_eq_take s.buf s.buf_offset 4 s.buf_length h4]
    rw [show readRange s.buf s.buf_offset s.buf_length = rawBytes s from rfl]
    rw [← @List.take_append_of_le_length Nat _ src _ (by omega), hE]
    rw [show (4 : Nat) = 4 * 1 from rfl, KL1]
  have hdrop4 : (rawBytes (buf_left_shift s (min s.buf_length 4))) ++ src =
      b64encode (B.drop (3 * (m + 1))) := by
    rw [rawBytes_buf_left_shift, hmin]
    rw [← @List.drop_append_of_le_length Nat _ src _ (by omega), hE]
    rw [show (4 : Nat) = 4 * 1 from rfl, KL2]
    all_goals congr 1
    all_goals rw [List.drop_drop]
    all_goals congr 1
    all_goals omega
  have hbpos : 0 < ((B.drop (3 * m)).take 3).length := by
    simp only [List.length_take]
    have : 0 < (B.drop (3 * m)).length := List.length_pos.mpr hrestne
    omega
  have hshift_len : (buf_left_shift s (min s.buf_length 4)).buf_length = s.buf_length - 4 := by
    rw [buf_length_buf_left_shift, hmin]
  have hshift_temp := temp_buf_left_shift s (min s.buf_length 4)
  by_cases hbk : ((B.drop (3 * m)).take 3).length ≤ k
  · -- the whole group fits
    have hdb : drain_block s k = .ok ((B.drop (3 * m)).take 3,
        k - ((B.drop (3 * m)).take 3).length, buf_left_shift s (min s.buf_length 4)) := by
      rw [drain_block, hdec]
      dsimp only
      rw [if_pos hbk]
    refine ⟨_, _, _, hdb, ⟨inv_drain_block s k _ _ _ hInv (by omega) hdb,
      offinv_drain_block s k _ _ _ hdb, hdrop4⟩, ?_, ?_, ?_⟩
    · rw [tempBytes_empty _ (by rw [hshift_temp.2]; exact htemp)]
      rw [List.append_nil]
      have hdd : (B.drop (3 * m)).drop 3 = B.drop (3 * (m + 1)) := by
        rw [List.drop_drop]
        all_goals congr 1
        all_goals omega
      rw [← hdd]
      all_goals exact List.take_append_drop 3 (B.drop (3 * m))
    · intro hnil
      rw [hnil] at hbpos
      simp at hbpos
    · rw [hshift_len, hshift_temp.2]
      omega
  · -- overflow into temp
    have hdb : drain_block s k = .ok (((B.drop (3 * m)).take 3).take k, 0,
        { buf_left_shift s (min s.buf_length 4) with
            temp := writeBytes (buf_left_shift s (min s.buf_length 4)).temp 0
              (((B.drop (3 * m)).take 3).drop k),
            temp_length := ((B.drop (3 * m)).take 3).length - k }) := by
      rw [drain_block, hdec]
      dsimp only
      rw [if_neg hbk]
    refine ⟨_, _, _, hdb, ⟨inv_drain_block s k _ _ _ hInv (by omega) hdb,
      offinv_drain_block s k _ _ _ hdb, ?_⟩, ?_, ?_, ?_⟩
    · exact hdrop4
    · have htb : tempBytes { buf_left_shift s (min s.buf_length 4) with
          temp := writeBytes (buf_left_shift s (min s.buf_length 4)).temp 0
            (((B.drop (3 * m)).take 3).drop k),
          temp_length := ((B.drop (3 * m)).take 3).length - k } =
          ((B.drop (3 * m)).take 3).drop k := by
        show readRange (writeBytes (buf_left_shift s (min s.buf_length 4)).temp 0
          (((B.drop (3 * m)).take 3).drop k)) 0 (((B.drop (3 * m)).take 3).length - k) =
          ((B.drop (3 * m)).take 3).drop k
        have h1 := readRange_writeBytes_eq (buf_left_shift s (min s.buf_length 4)).temp 0
          (((B.drop (3 * m)).take 3).drop k)
        rw [List.length_drop] at h1
        exact h1
      rw [htb, List.take_append_drop]
      have hdd : (B.drop (3 * m)).drop 3 = B.drop (3 * (m + 1)) := by
        rw [List.drop_drop]
        all_goals congr 1
        all_goals omega
      rw [← hdd]
      all_goals exact List.take_append_drop 3 (B.drop (3 * m))
    · intro hnil
      have hlt := congrArg List.length hnil
      rw [List.length_take, List.length_nil] at hlt
      omega
    · show (buf_left_shift s (min s.buf_length 4)).buf_length +
        (((B.drop (3 * m)).take 3).length - k) < s.buf_length + s.temp_length
      rw [hshift_len]
      have hc3 : ((B.drop (3 * m)).take 3).length ≤ 3 := by
        rw [List.length_take]
        omega
      omega

end Base64Stream
namespace Base64Stream

theorem tempBytes_eq_of_fields (s1 s2 : Reader) (h1 : s1.temp = s2.temp)
    (h2 : s1.temp_length = s2.temp_length) : tempBytes s1 = tempBytes s2 := by
  rw [tempBytes, tempBytes, h1, h2]

theorem bulk_step (B : List Nat) (m : Nat) (s1 : Reader) (src : List Nat) (k1 dl : Nat)
    (hB : ∀ b ∈ B, b < 256)
    (hSI : StreamInv B m s1 src) (hk3 : 3 ≤ k1) (h4 : 4 ≤ s1.buf_length)
    (hdl : dl = min (s1.buf_length - s1.buf_length % 4) (k1 / 3 * 4)) :
    b64decode (readRange s1.buf s1.buf_offset dl) =
      .ok ((B.drop (3 * m)).take (3 * (dl / 4))) ∧
    StreamInv B (m + dl / 4) (buf_left_shift s1 dl) src ∧
    (B.drop (3 * m)).take (3 * (dl / 4)) ++ B.drop (3 * (m + dl / 4)) = B.drop (3 * m) ∧
    4 ≤ dl ∧ dl ≤ s1.buf_length ∧
    (buf_left_shift s1 dl).buf_length = s1.buf_length - dl ∧
    (buf_left_shift s1 dl).temp_length = s1.temp_length ∧
    tempBytes (buf_left_shift s1 dl) = tempBytes s1 ∧
    (B.drop (3 * m)).take (3 * (dl / 4)) ≠ [] := by
  obtain ⟨hInv, hOff, hE⟩ := hSI
  have hlenraw : (rawBytes s1).length = s1.buf_length := length_rawBytes s1
  have hdl4 : 4 ≤ dl := by omega
  have hdlle : dl ≤ s1.buf_length := by omega
  have hdlmod : dl % 4 = 0 := by omega
  have h4j : 4 * (dl / 4) = dl := by omega
  have hlenE : dl ≤ (b64encode (B.drop (3 * m))).length := by
    have := congrArg List.length hE
    rw [List.length_append, hlenraw] at this
    omega
  have hrb : ∀ b ∈ B.drop (3 * m), b < 256 := fun b hb => hB b (List.mem_of_mem_drop hb)
  obtain ⟨KL1, KL2⟩ := encode_take_drop (dl / 4) (B.drop (3 * m)) hrb (by omega)
  rw [h4j] at KL1 KL2
  have hrestne : B.drop (3 * m) ≠ [] := by
    intro hnil
    rw [hnil] at hlenE
    rw [show b64encode [] = [] from rfl] at hlenE
    simp at hlenE
    omega
  have hdd : (B.drop (3 * m)).drop (3 * (dl / 4)) = B.drop (3 * (m + dl / 4)) := by
    rw [List.drop_drop]
    congr 1
    ring
  have hdec : b64decode (readRange s1.buf s1.buf_offset dl) =
      .ok ((B.drop (3 * m)).take (3 * (dl / 4))) := by
    rw [readRange_eq_take s1.buf s1.buf_offset dl s1.buf_length hdlle]
    rw [show readRange s1.buf s1.buf_offset s1.buf_length = rawBytes s1 from rfl]
    rw [← @List.take_append_of_le_length Nat _ src _ (by omega), hE]
    exact KL1
  have hshift_temp := temp_buf_left_shift s1 dl
  refine ⟨hdec, ⟨inv_buf_left_shift s1 dl hInv, offinv_buf_left_shift s1 dl, ?_⟩, ?_,
    hdl4, hdlle, buf_length_buf_left_shift s1 dl, hshift_temp.2,
    tempBytes_eq_of_fields _ _ hshift_temp.1 hshift_temp.2, ?_⟩
  · rw [rawBytes_buf_left_shift]
    rw [← @List.drop_append_of_le_length Nat _ src _ (by omega), hE]
    rw [KL2, hdd]
  · rw [← hdd]
    exact List.take_append_drop (3 * (dl / 4)) (B.drop (3 * m))
  · intro hnil
    have hlt := congrArg List.length hnil
    rw [List.length_take, List.length_nil] at hlt
    have hrp : 0 < (B.drop (3 * m)).length := List.length_pos.mpr hrestne
    omega

end Base64Stream
namespace Base64Stream

theorem drain_step_core (B : List Nat) (m : Nat) (s : Reader) (src : List Nat) (k : Nat)
    (out1 : List Nat) (k1 : Nat) (s1 : Reader)
    (hB : ∀ b ∈ B, b < 256) (hk : k ≠ 0)
    (hp : (if 0 < s.temp_length then drain_temp s k else (([] : List Nat), k, s)) =
      (out1, k1, s1))
    (hSI1 : StreamInv B m s1 src) (ht1 : s1.temp_length = 0) (hk1 : 1 ≤ k1)
    (h41 : 4 ≤ s1.buf_length) :
    ∃ out k' s' m', drain s k = .ok (out, k', s') ∧ StreamInv B m' s' src ∧
      out ++ tempBytes s' ++ B.drop (3 * m') = out1 ++ B.drop (3 * m) ∧
      out ≠ [] ∧ s'.buf_length + s'.temp_length < s1.buf_length := by
  by_cases hk3 : 3 ≤ k1
  · -- bulk stage runs
    obtain ⟨hdec, hSI2, hsplit, hdl4, hdlle, hlen2, htemp2, htb2, hbne⟩ :=
      bulk_step B m s1 src k1 (min (s1.buf_length - s1.buf_length % 4) (k1 / 3 * 4))
        hB hSI1 hk3 h41 rfl
    set dl := min (s1.buf_length - s1.buf_length % 4) (k1 / 3 * 4) with hdldef
    set b := (B.drop (3 * m)).take (3 * (dl / 4)) with hbdef
    set s2 := buf_left_shift s1 dl with hs2def
    set m2 := m + dl / 4 with hm2def
    by_cases hgo : 0 < k1 - b.length ∧ 4 ≤ s2.buf_length
    · -- trailing drain_block also runs
      obtain ⟨out3, k3, s3, hdb, hSI3, hsplit3, hne3, hmu3⟩ :=
        drain_block_step B m2 s2 src (k1 - b.length) hB hSI2 (by omega) hgo.2
          (by rw [htemp2, ht1])
      refine ⟨out1 ++ b ++ out3, k3, s3, m2 + 1,
        drain_eq_bulk_block s k out1 k1 s1 b out3 k3 s3 hk hp hk3 hdec hgo hdb,
        hSI3, ?_, ?_, ?_⟩
      · simp only [List.append_assoc] at hsplit3 hsplit ⊢
        rw [hsplit3, hsplit]
      · intro hnil
        rcases List.append_eq_nil.mp hnil with ⟨ha, _⟩
        rcases List.append_eq_nil.mp ha with ⟨_, hbnil⟩
        exact hbne hbnil
      · have h2 : s2.buf_length + s2.temp_length ≤ s1.buf_length - 4 := by
          rw [hlen2, htemp2, ht1]
          omega
        omega
    · -- bulk only
      refine ⟨out1 ++ b, k1 - b.length, s2, m2,
        drain_eq_bulk s k out1 k1 s1 b hk hp hk3 hdec hgo, hSI2, ?_, ?_, ?_⟩
      · simp only [List.append_assoc] at hsplit ⊢
        rw [htb2, tempBytes_empty s1 ht1]
        simp only [List.nil_append]
        rw [hsplit]
      · intro hnil
        rcases List.append_eq_nil.mp hnil with ⟨_, hbnil⟩
        exact hbne hbnil
      · rw [hlen2, htemp2, ht1]
        omega
  · -- no bulk; the single-group path runs
    obtain ⟨out3, k3, s3, hdb, hSI3, hsplit3, hne3, hmu3⟩ :=
      drain_block_step B m s1 src k1 hB hSI1 hk1 h41 ht1
    refine ⟨out1 ++ out3, k3, s3, m + 1,
      drain_eq_no_bulk_block s k out1 k1 s1 out3 k3 s3 hk hp (by omega)
        ⟨by omega, h41⟩ hdb,
      hSI3, ?_, ?_, ?_⟩
    · simp only [List.append_assoc] at hsplit3 ⊢
      rw [hsplit3]
    · intro hnil
      rcases List.append_eq_nil.mp hnil with ⟨_, hbnil⟩
      exact hne3 hbnil
    · rw [ht1] at hmu3
      omega

end Base64Stream
namespace Base64Stream

theorem rawBytes_eq_of_fields (s1 s2 : Reader) (h1 : s1.buf = s2.buf)
    (h2 : s1.buf_offset = s2.buf_offset) (h3 : s1.buf_length = s2.buf_length) :
    rawBytes s1 = rawBytes s2 := by
  rw [rawBytes, rawBytes, h1, h2, h3]

theorem length_tempBytes (s : Reader) : (tempBytes s).length = s.temp_length := by
  rw [tempBytes, readRange_length]

theorem drain_step (B : List Nat) (m : Nat) (s : Reader) (src : List Nat) (k : Nat)
    (hB : ∀ b ∈ B, b < 256)
    (hSI : StreamInv B m s src) (hk : 1 ≤ k) (h4 : 4 ≤ s.buf_length) :
    ∃ out k' s' m', drain s k = .ok (out, k', s') ∧ StreamInv B m' s' src ∧
      out ++ tempBytes s' ++ B.drop (3 * m') = tempBytes s ++ B.drop (3 * m) ∧
      out ≠ [] ∧ s'.buf_length + s'.temp_length < s.buf_length + s.temp_length := by
  have hInvS := hSI.1
  have ht2 : s.temp_length ≤ 2 := hInvS.2.2
  by_cases ht : 0 < s.temp_length
  · -- pending overflow: drain_temp runs first
    have hp : (if 0 < s.temp_length then drain_temp s k else (([] : List Nat), k, s)) =
        ((drain_temp s k).1, (drain_temp s k).2.1, (drain_temp s k).2.2) := by
      rw [if_pos ht]
    obtain ⟨hT1, hT2, hT3, hT4, hT5, hT6, hT7, hT8⟩ := drain_temp_spec s k (by omega) ht2
    have hSI1 : StreamInv B m (drain_temp s k).2.2 src := by
      refine ⟨inv_drain_temp s k hInvS, ?_, ?_⟩
      · rw [OffInv, hT7]
        exact hSI.2.1
      · rw [rawBytes_eq_of_fields (drain_temp s k).2.2 s hT5 hT7 hT6]
        exact hSI.2.2
    by_cases hk1 : 1 ≤ (drain_temp s k).2.1
    · -- capacity remains after the overflow drain; temp is fully drained
      have hmin : min k s.temp_length = s.temp_length := by
        rw [hT2] at hk1
        omega
      have ht10 : (drain_temp s k).2.2.temp_length = 0 := by
        rw [hT3, hmin]
        omega
      have hout1 : (drain_temp s k).1 = tempBytes s := by
        rw [hT1, hmin]
        have := length_tempBytes s
        rw [← this]
        exact List.take_length ..
      obtain ⟨out, k', s', m', hdr, hSI', hsplit, hne, hmu⟩ :=
        drain_step_core B m s src k (drain_temp s k).1 (drain_temp s k).2.1
          (drain_temp s k).2.2 hB (by omega) hp hSI1 ht10 hk1 (by rw [hT6]; exact h4)
      refine ⟨out, k', s', m', hdr, hSI', ?_, hne, ?_⟩
      · rw [hsplit, hout1]
      · rw [hT6] at hmu
        omega
    · -- the overflow drain exhausted the caller's buffer
      have hk10 : (drain_temp s k).2.1 = 0 := by omega
      have hdr := drain_eq_no_bulk s k (drain_temp s k).1 (drain_temp s k).2.1
        (drain_temp s k).2.2 (by omega) hp (by omega)
        (by rw [hk10]; intro hcon; exact absurd hcon.1 (by omega))
      refine ⟨(drain_temp s k).1, (drain_temp s k).2.1, (drain_temp s k).2.2, m, hdr,
        hSI1, ?_, ?_, ?_⟩
      · congr 1
        rw [hT1, hT4]
        exact List.take_append_drop _ (tempBytes s)
      · intro hnil
        have hlt := congrArg List.length hnil
        rw [hT1, List.length_take, length_tempBytes, List.length_nil] at hlt
        omega
      · rw [hT6, hT3]
        omega
  · -- no pending overflow
    have hp : (if 0 < s.temp_length then drain_temp s k else (([] : List Nat), k, s)) =
        (([] : List Nat), k, s) := by
      rw [if_neg ht]
    obtain ⟨out, k', s', m', hdr, hSI', hsplit, hne, hmu⟩ :=
      drain_step_core B m s src k [] k s hB (by omega) hp hSI (by omega) hk h4
    refine ⟨out, k', s', m', hdr, hSI', ?_, hne, by omega⟩
    rw [hsplit, tempBytes_empty s (by omega), List.nil_append]

end Base64Stream
namespace Base64Stream

theorem rawBytes_fill (s : Reader) (src : List Nat) (c : Nat) (hc : c ≤ src.length) :
    rawBytes { s with buf := writeBytes s.buf (s.buf_offset + s.buf_length) (src.take c),
                      buf_length := s.buf_length + c } = rawBytes s ++ src.take c := by
  show readRange (writeBytes s.buf (s.buf_offset + s.buf_length) (src.take c)) s.buf_offset
    (s.buf_length + c) = rawBytes s ++ src.take c
  rw [readRange_add]
  congr 1
  · rw [readRange_writeBytes_before _ _ _ _ _ le_rfl]
    rfl
  · have h := readRange_writeBytes_eq s.buf (s.buf_offset + s.buf_length) (src.take c)
    rw [List.length_take, min_eq_left hc] at h
    exact h

theorem drain_end_step (B : List Nat) (m : Nat) (s : Reader) (k : Nat)
    (hSI : StreamInv B m s []) (hk : 1 ≤ k) (h4 : s.buf_length < 4) :
    ∃ out k' s', drain_end s k = .ok (out, k', s') ∧ StreamInv B m s' [] ∧
      B.drop (3 * m) = [] ∧
      out ++ tempBytes s' = tempBytes s ∧
      (out = [] → tempBytes s = []) ∧
      (out ≠ [] → s'.buf_length + s'.temp_length < s.buf_length + s.temp_length) := by
  obtain ⟨hInv, hOff, hE⟩ := hSI
  rw [List.append_nil] at hE
  have hlenraw : (rawBytes s).length = s.buf_length := length_rawBytes s
  have hrest : B.drop (3 * m) = [] := by
    by_contra hne
    have := b64encode_length_ge (B.drop (3 * m)) hne
    rw [← hE, hlenraw] at this
    omega
  have hraw0 : s.buf_length = 0 := by
    rw [hrest] at hE
    rw [show b64encode [] = [] from rfl] at hE
    have := congrArg List.length hE
    rw [hlenraw] at this
    simpa using this
  by_cases ht : 0 < s.temp_length
  · -- pending overflow only
    have hp : (if 0 < s.temp_length then drain_temp s k else (([] : List Nat), k, s)) =
        ((drain_temp s k).1, (drain_temp s k).2.1, (drain_temp s k).2.2) := by
      rw [if_pos ht]
    obtain ⟨hT1, hT2, hT3, hT4, hT5, hT6, hT7, hT8⟩ :=
      drain_temp_spec s k (by omega) hInv.2.2
    have hde := drain_end_eq_no_block s k (drain_temp s k).1 (drain_temp s k).2.1
      (drain_temp s k).2.2 (by omega) hp
      (by rw [hT6]; intro hcon; omega)
    refine ⟨(drain_temp s k).1, (drain_temp s k).2.1, (drain_temp s k).2.2, hde,
      ⟨inv_drain_temp s k hInv, by rw [OffInv, hT7]; exact hOff, ?_⟩, hrest, ?_, ?_, ?_⟩
    · rw [rawBytes_eq_of_fields (drain_temp s k).2.2 s hT5 hT7 hT6]
      rw [List.append_nil, hE, hrest]
    · rw [hT1, hT4]
      exact List.take_append_drop _ (tempBytes s)
    · intro hnil
      have hlt := congrArg List.length hnil
      rw [hT1, List.length_take, length_tempBytes, List.length_nil] at hlt
      omega
    · intro _
      rw [hT6, hT3]
      omega
  · -- nothing left at all
    have hdt := drain_end_trivial s k (by omega) hraw0
    refine ⟨[], k, s, hdt, ⟨hInv, hOff, by rw [List.append_nil, hE]⟩, hrest,
      by rw [List.nil_append], fun _ => tempBytes_empty s (by omega), ?_⟩
    intro hcon
    exact absurd rfl hcon

theorem read_step (B : List Nat) (m : Nat) (s : Reader) (src : List Nat) (k : Nat)
    (hB : ∀ b ∈ B, b < 256)
    (hSI : StreamInv B m s src) (hk : 1 ≤ k) :
    ∃ out s' src' m', readCursor s src k = (.ok out, s', src') ∧ StreamInv B m' s' src' ∧
      out ++ tempBytes s' ++ B.drop (3 * m') = tempBytes s ++ B.drop (3 * m) ∧
      (out = [] → tempBytes s ++ B.drop (3 * m) = []) ∧
      (out ≠ [] → src'.length + s'.buf_length + s'.temp_length <
        src.length + s.buf_length + s.temp_length) := by
  have H : ∀ (n : Nat) (m : Nat) (s : Reader) (src : List Nat), src.length ≤ n →
      StreamInv B m s src →
      ∃ out s' src' m', readCursor s src k = (.ok out, s', src') ∧ StreamInv B m' s' src' ∧
        out ++ tempBytes s' ++ B.drop (3 * m') = tempBytes s ++ B.drop (3 * m) ∧
        (out = [] → tempBytes s ++ B.drop (3 * m) = []) ∧
        (out ≠ [] → src'.length + s'.buf_length + s'.temp_length <
          src.length + s.buf_length + s.temp_length) := by
    intro n
    induction n with
    | zero =>
      intro m s src hlen hSIv
      have hsrcnil : src = [] := List.eq_nil_of_length_eq_zero (by omega)
      subst hsrcnil
      by_cases h4 : s.buf_length < 4
      · have hc : min (BUFFER_SIZE - (s.buf_offset + s.buf_length)) ([] : List Nat).length
            = 0 := by simp
        rw [readCursor_exhaust s [] k h4 hc]
        obtain ⟨out, k', s', hde, hSI', hrest, hout, hemp, hmu⟩ :=
          drain_end_step B m s k hSIv hk h4
        rw [hde]
        refine ⟨out, s', [], m, rfl, hSI', ?_, ?_, ?_⟩
        · rw [hrest, List.append_nil, List.append_nil]
          exact hout
        · intro ho
          rw [hrest, List.append_nil]
          exact hemp ho
        · intro ho
          simp only [List.length_nil]
          have := hmu ho
          omega
      · rw [readCursor_of_ge s [] k h4]
        obtain ⟨out, k', s', m', hdr, hSI', hsplit, hne, hmu⟩ :=
          drain_step B m s [] k hB hSIv hk (by omega)
        rw [hdr]
        refine ⟨out, s', [], m', rfl, hSI', hsplit, fun ho => absurd ho hne, ?_⟩
        intro _
        simp only [List.length_nil]
        omega
    | succ n IH =>
      intro m s src hlen hSIv
      by_cases h4 : s.buf_length < 4
      · by_cases hc : min (BUFFER_SIZE - (s.buf_offset + s.buf_length)) src.length = 0
        · have hsrcnil : src = [] := by
            have hsp : 0 < BUFFER_SIZE - (s.buf_offset + s.buf_length) := by
              have hOff := hSIv.2.1
              rw [OffInv] at hOff
              have hB36 : (36 : Nat) ≤ BUFFER_SIZE := by rw [BUFFER_SIZE]; omega
              omega
            have : src.length = 0 := by omega
            exact List.eq_nil_of_length_eq_zero this
          subst hsrcnil
          rw [readCursor_exhaust s [] k h4 hc]
          obtain ⟨out, k', s', hde, hSI', hrest, hout, hemp, hmu⟩ :=
            drain_end_step B m s k hSIv hk h4
          rw [hde]
          refine ⟨out, s', [], m, rfl, hSI', ?_, ?_, ?_⟩
          · rw [hrest, List.append_nil, List.append_nil]
            exact hout
          · intro ho
            rw [hrest, List.append_nil]
            exact hemp ho
          · intro ho
            simp only [List.length_nil]
            have := hmu ho
            omega
        · rw [readCursor_fill s src k h4 hc]
          set c := min (BUFFER_SIZE - (s.buf_offset + s.buf_length)) src.length with hcdef
          have hcle : c ≤ src.length := by omega
          have hSIup : StreamInv B m
              { s with buf := writeBytes s.buf (s.buf_offset + s.buf_length) (src.take c),
                       buf_length := s.buf_length + c } (src.drop c) := by
            refine ⟨?_, ?_, ?_⟩
            · have := inv_fill_step s src hSIv.1
              rw [min_comm src.length (BUFFER_SIZE - (s.buf_offset + s.buf_length))] at this
              exact this
            · exact hSIv.2.1
            · rw [rawBytes_fill s src c hcle]
              rw [List.append_assoc, List.take_append_drop]
              exact hSIv.2.2
          obtain ⟨out, s', src', m', hrc, hSI', hsplit, hemp, hmu⟩ :=
            IH m _ (src.drop c) (by simp only [List.length_drop]; omega) hSIup
          refine ⟨out, s', src', m', hrc, hSI', hsplit, hemp, ?_⟩
          intro ho
          have := hmu ho
          simp only [List.length_drop] at this ⊢
          omega
      · rw [readCursor_of_ge s src k h4]
        obtain ⟨out, k', s', m', hdr, hSI', hsplit, hne, hmu⟩ :=
          drain_step B m s src k hB hSIv hk (by omega)
        rw [hdr]
        exact ⟨out, s', src, m', rfl, hSI', hsplit, fun ho => absurd ho hne,
          fun _ => by omega⟩
  exact H src.length m s src le_rfl hSI

end Base64Stream
namespace Base64Stream

theorem readAllGo_spec (B : List Nat) (hB : ∀ b ∈ B, b < 256) (k : Nat) (hk : 1 ≤ k) :
    ∀ (fuel : Nat) (m : Nat) (s : Reader) (src : List Nat), StreamInv B m s src →
      src.length + s.buf_length + s.temp_length < fuel →
      readAllGo fuel s src k = some (tempBytes s ++ B.drop (3 * m)) := by
  intro fuel
  induction fuel with
  | zero =>
    intro m s src hSI hmu
    omega
  | succ fuel IH =>
    intro m s src hSI hmu
    obtain ⟨out, s', src', m', hrc, hSI', hsplit, hemp, hne⟩ :=
      read_step B m s src k hB hSI hk
    rw [readAllGo, hrc]
    dsimp only
    by_cases hout : out.isEmpty
    · rw [if_pos hout]
      have hR : tempBytes s ++ B.drop (3 * m) = [] :=
        hemp (List.isEmpty_iff.mp hout)
      rw [hR]
    · rw [if_neg hout]
      have honil : out ≠ [] := by
        intro h
        rw [h] at hout
        simp at hout
      rw [IH m' s' src' hSI' (by have := hne honil; omega)]
      rw [← hsplit]
      rw [List.append_assoc]

/-- **C1.** Round-trip through the streaming decoder: for every byte sequence
`B` and every caller-buffer size `k ≥ 1`, wrapping the standard base64
encoding of `B` in the decoder (over an in-memory cursor source), repeatedly
calling `read` with a `k`-byte buffer, and concatenating all bytes produced
across the calls yields exactly `B`, with no error, for every choice of `k`. -/
theorem streaming_roundtrip (B : List Nat) (k : Nat) (hB : ∀ b ∈ B, b < 256)
    (hk : 1 ≤ k) : readAll B k = some B := by
  rw [readAll]
  have h0 : StreamInv B 0 Reader.new (b64encode B) := by
    refine ⟨inv_new, ?_, ?_⟩
    · show (0 : Nat) ≤ BUFFER_SIZE - 32
      omega
    · rw [show rawBytes Reader.new = [] from rfl, List.nil_append, Nat.mul_zero,
        List.drop_zero]
  rw [readAllGo_spec B hB k hk ((b64encode B).length + 1) 0 Reader.new (b64encode B) h0
    (by simp [Reader.new])]
  rw [show tempBytes Reader.new = [] from rfl, List.nil_append, Nat.mul_zero,
    List.drop_zero]

/-- Witness for `streaming_roundtrip`: the bytes of `"Hi"` through a 1-byte
caller buffer. -/
theorem streaming_roundtrip_witness : readAll [72, 105] 1 = some [72, 105] :=
  streaming_roundtrip [72, 105] 1 (by decide) (by decide)

end Base64Stream
